import Mathlib

/-!
Verification of the complete-graph (shortest-path closure) engine from
`src/complete_graph.rs`: a repeatedly-invoked single-source Dijkstra engine
with a deterministic tie-break and a fast-clear timestamp scheme.

The Rust code is shallowly embedded: `Vec` becomes `List`, `BTreeMap` becomes
a key-sorted association list, `usize` becomes `Nat` (with the constant
`usizeMAX = 2 ^ 64 - 1` standing for `usize::MAX`, which the code compares
against but never overflows past), and the unbounded `loop` becomes a
fuel-indexed recursion returning `Option`/`Except` (`none` on fuel
exhaustion); fuel sufficiency is proved separately, so termination of the
Rust loop corresponds to the result being `some`.
-/

/-- `usize::MAX` (also `FastClearTimestamp::MAX` and `VertexIndex::MAX`,
both type aliases of `usize` in the Rust sources). -/
def usizeMAX : Nat := 2 ^ 64 - 1

/-- Lookup in an association list keyed by `Nat` (first binding wins). -/
def alookup {α : Type} (k : Nat) : List (Nat × α) → Option α
  | [] => none
  | (k2, v) :: rest => if k2 = k then some v else alookup k rest

/-- `BTreeMap::insert`: ordered insert into a key-sorted association list,
overwriting an existing binding of the same key. -/
def btreeInsert {α : Type} (k : Nat) (v : α) : List (Nat × α) → List (Nat × α)
  | [] => [(k, v)]
  | (k2, v2) :: rest =>
    if k < k2 then (k, v) :: (k2, v2) :: rest
    else if k = k2 then (k, v) :: rest
    else (k2, v2) :: btreeInsert k v rest

/-- `PriorityElement` from `complete_graph.rs`: the tentative record a frontier
vertex carries (total weight from the source, and the predecessor vertex). -/
structure PriorityElement where
  weight : Nat
  previous : Nat
deriving DecidableEq, Repr

/-- `CompleteGraphVertex`: skeleton-graph adjacency of one vertex (a `BTreeMap`
from neighbor index to edge weight) plus its fast-clear timestamp. -/
structure CompleteGraphVertex where
  edges : List (Nat × Nat)
  timestamp : Nat
deriving DecidableEq, Repr

/-- `CompleteGraph`: the engine state. -/
structure CompleteGraph where
  vertex_num : Nat
  vertices : List CompleteGraphVertex
  active_timestamp : Nat
deriving DecidableEq, Repr

/-- Default vertex used by total list indexing (all in-range accesses are
established by well-formedness hypotheses, matching Rust's panicking index). -/
def dfltVertex : CompleteGraphVertex := ⟨[], 0⟩

/-- Modelled from the spec (§4.3 Priority Frontier): the
`crate::priority_queue::PriorityQueue` used by `complete_graph.rs` is not among
the provided sources.  It is a mutable min-priority structure keyed by vertex,
with `push`, `get_priority`, `change_priority` and a pop of the globally
minimum entry; a key appears at most once, and no ordering among equal
priorities is promised, so this model deterministically pops the first entry
of minimal weight.  `get_priority` is `alookup`. -/
def pqPush (k : Nat) (pe : PriorityElement) (pq : List (Nat × PriorityElement)) :
    List (Nat × PriorityElement) :=
  pq ++ [(k, pe)]

/-- Modelled from the spec (§4.3): `change_priority` replaces the priority of
an existing key. -/
def pqChangePriority (k : Nat) (pe : PriorityElement)
    (pq : List (Nat × PriorityElement)) : List (Nat × PriorityElement) :=
  pq.map (fun e => if e.1 = k then (k, pe) else e)

/-- Modelled from the spec (§4.3): remove and return the globally minimum
entry (smallest `weight`; the first such entry in insertion order). -/
def popMin : List (Nat × PriorityElement) →
    Option ((Nat × PriorityElement) × List (Nat × PriorityElement))
  | [] => none
  | e :: rest =>
    match popMin rest with
    | none => some (e, [])
    | some (e2, rest2) =>
      if e.2.weight ≤ e2.2.weight then some (e, rest) else some (e2, e :: rest2)

/-- The absolute index-distance `if neighbor > previous { neighbor - previous }
else { previous - neighbor }` from the tie-break in
`all_edges_with_terminate`. -/
def index_distance (neighbor previous : Nat) : Nat :=
  if neighbor > previous then neighbor - previous else previous - neighbor

/-- The `update` flag of the relaxation step (`complete_graph.rs` lines 81-89):
update if the new weight is strictly smaller, or on an exact weight tie when
the index-distance from `neighbor` to `previous` (the popped element's
predecessor) beats the one to `existing_previous`, with the smaller
predecessor index as the final tie-break. -/
def relaxUpdate (neighbor previous edge_weight existing_weight existing_previous : Nat) :
    Bool :=
  if edge_weight < existing_weight then true
  else if edge_weight = existing_weight then
    let distance := index_distance neighbor previous
    let existing_distance := index_distance neighbor existing_previous
    decide (distance < existing_distance ∨
      (distance = existing_distance ∧ previous < existing_previous))
  else false

/-- One iteration of the neighbor loop of `all_edges_with_terminate`
(lines 76-98): relax the single skeleton edge `nb = (neighbor,
neighbor_weight)` out of the popped vertex `target`, whose popped element was
`⟨weight, previous⟩`. -/
def relaxOne (vs : List CompleteGraphVertex) (active target weight previous : Nat)
    (pq : List (Nat × PriorityElement)) (nb : Nat × Nat) :
    List (Nat × PriorityElement) :=
  let neighbor := nb.1
  let neighbor_weight := nb.2
  let edge_weight := weight + neighbor_weight
  match alookup neighbor pq with
  | some pe =>
    if relaxUpdate neighbor previous edge_weight pe.weight pe.previous then
      pqChangePriority neighbor ⟨edge_weight, target⟩ pq
    else pq
  | none =>
    if (vs.getD neighbor dfltVertex).timestamp ≠ active then
      pqPush neighbor ⟨edge_weight, target⟩ pq
    else pq

/-- The whole neighbor loop: fold `relaxOne` over the adjacency of `target`. -/
def relaxNeighbors (vs : List CompleteGraphVertex) (active target weight previous : Nat)
    (pq : List (Nat × PriorityElement)) : List (Nat × PriorityElement) :=
  ((vs.getD target dfltVertex).edges).foldl (relaxOne vs active target weight previous) pq

/-- The timestamp mutation `self.vertices[target].timestamp = active_timestamp`
marking the popped vertex as visited. -/
def markVisited (vs : List CompleteGraphVertex) (target active : Nat) :
    List CompleteGraphVertex :=
  vs.set target { vs.getD target dfltVertex with timestamp := active }

/-- The main `loop` of `all_edges_with_terminate` (lines 58-99), fuel-indexed.
Each iteration pops the minimum frontier entry, stamps the popped vertex with
the active timestamp, records it in `computed_edges` unless it is the source,
breaks early when it is `terminate`, and relaxes its skeleton edges.  `none`
means the fuel ran out with the frontier still nonempty. -/
def dijkstraLoop (vertex terminate active : Nat) :
    Nat → List CompleteGraphVertex → List (Nat × PriorityElement) →
    List (Nat × (Nat × Nat)) →
    Option (List CompleteGraphVertex × List (Nat × (Nat × Nat)))
  | fuel, vs, pq, computed_edges =>
    match popMin pq with
    | none => some (vs, computed_edges)
    | some ((target, pe), pq2) =>
      match fuel with
      | 0 => none
      | fuel + 1 =>
        let vs2 := markVisited vs target active
        if target ≠ vertex then
          let ce2 := btreeInsert target (pe.previous, pe.weight) computed_edges
          if target = terminate then some (vs2, ce2)
          else
            dijkstraLoop vertex terminate active fuel vs2
              (relaxNeighbors vs2 active target pe.weight pe.previous pq2) ce2
        else
          dijkstraLoop vertex terminate active fuel vs2
            (relaxNeighbors vs2 active target pe.weight pe.previous pq2) computed_edges

/-- `CompleteGraph::new`: build the adjacency maps from the weighted edge
list, inserting each undirected edge at both endpoints. -/
def CompleteGraph.new (vertex_num : Nat) (weighted_edges : List (Nat × Nat × Nat)) :
    CompleteGraph :=
  let vertices : List CompleteGraphVertex :=
    (List.range vertex_num).map (fun _ => { edges := [], timestamp := 0 })
  let vertices := weighted_edges.foldl
    (fun vs e =>
      let vs := vs.set e.1
        { vs.getD e.1 dfltVertex with
            edges := btreeInsert e.2.1 e.2.2 (vs.getD e.1 dfltVertex).edges }
      vs.set e.2.1
        { vs.getD e.2.1 dfltVertex with
            edges := btreeInsert e.1 e.2.2 (vs.getD e.2.1 dfltVertex).edges })
    vertices
  { vertex_num := vertex_num, vertices := vertices, active_timestamp := 0 }

/-- `CompleteGraph::invalidate_previous_dijkstra`: when the clock sits at
`usize::MAX`, zero it and physically reset every vertex's timestamp; then
advance the clock and return its new value (together with the new state, as
the Rust method mutates `self`). -/
def CompleteGraph.invalidate_previous_dijkstra (g : CompleteGraph) :
    Nat × CompleteGraph :=
  let g1 :=
    if g.active_timestamp = usizeMAX then
      { g with
          active_timestamp := 0,
          vertices := (List.range g.vertex_num).foldl
            (fun vs i => vs.set i { vs.getD i dfltVertex with timestamp := 0 })
            g.vertices }
    else g
  let g2 := { g1 with active_timestamp := g1.active_timestamp + 1 }
  (g2.active_timestamp, g2)

/-- Fuel used to run the traversal loop: each iteration stamps a previously
unstamped vertex, so `vertex_num + 1` iterations always suffice (proved
below). -/
def dijkstraFuel (g : CompleteGraph) : Nat := g.vertex_num + 1

/-- `CompleteGraph::all_edges_with_terminate`: one traversal.  Returns the
updated engine and the computed map `{ peer: (previous, weight) }`, or `none`
if the fuel ran out (impossible for well-formed engines). -/
def CompleteGraph.all_edges_with_terminate (g : CompleteGraph)
    (vertex terminate : Nat) :
    Option (CompleteGraph × List (Nat × (Nat × Nat))) :=
  let r := g.invalidate_previous_dijkstra
  let active_timestamp := r.1
  let g1 := r.2
  match dijkstraLoop vertex terminate active_timestamp (dijkstraFuel g1)
      g1.vertices (pqPush vertex ⟨0, vertex⟩ []) [] with
  | none => none
  | some (vs, computed_edges) =>
    some ({ g1 with vertices := vs }, computed_edges)

/-- `CompleteGraph::all_edges`: full traversal, early termination disabled by
passing `VertexIndex::MAX`. -/
def CompleteGraph.all_edges (g : CompleteGraph) (vertex : Nat) :
    Option (CompleteGraph × List (Nat × (Nat × Nat))) :=
  g.all_edges_with_terminate vertex usizeMAX

/-- Failure conditions of `get_path`.  `invalidArgument` is the
`assert_ne!(a, b)` panic; `missingKey` is the panic of indexing the result map
at an absent key; `outOfFuel` is the embedding's fuel artifact, proved
unreachable for well-formed engines. -/
inductive GetPathError where
  | invalidArgument : GetPathError
  | missingKey : GetPathError
  | outOfFuel : GetPathError
deriving DecidableEq, Repr

/-- The backward-walk loop of `get_path` (lines 116-127): follow recorded
predecessors from `b` until `a`, pushing `(vertex, weight)` and converting the
previously pushed cumulative weight into an incremental one by subtracting the
current weight. -/
def getPathLoop (edges : List (Nat × (Nat × Nat))) (a : Nat) :
    Nat → Nat → List (Nat × Nat) → Except GetPathError (List (Nat × Nat))
  | 0, _, _ => .error .outOfFuel
  | fuel + 1, vertex, path =>
    if vertex = a then .ok path
    else
      match alookup vertex edges with
      | none => .error .missingKey
      | some pw =>
        let path1 := path ++ [(vertex, pw.2)]
        let path2 :=
          if path1.length > 1 then
            path1.set (path1.length - 2)
              ((path1.getD (path1.length - 2) (0, 0)).1,
               (path1.getD (path1.length - 2) (0, 0)).2 - pw.2)
          else path1
        getPathLoop edges a fuel pw.1 path2

/-- `CompleteGraph::get_path`: minimum-weight path from `a` to `b`, as the
list of `(vertex, incremental weight)` steps ending at `b`, plus the total
weight `edges[&b].1`. -/
def CompleteGraph.get_path (g : CompleteGraph) (a b : Nat) :
    Except GetPathError (CompleteGraph × (List (Nat × Nat) × Nat)) :=
  if a = b then .error .invalidArgument
  else
    match g.all_edges_with_terminate a b with
    | none => .error .outOfFuel
    | some (g1, edges) =>
      match getPathLoop edges a (edges.length + 1) b [] with
      | .error e => .error e
      | .ok path =>
        match alookup b edges with
        | none => .error .missingKey
        | some pw => .ok (g1, (path.reverse, pw.2))

/-! ## Specification-side definitions -/

/-- Adjacency list of vertex `u` in a vertex array. -/
def edgesOf (vs : List CompleteGraphVertex) (u : Nat) : List (Nat × Nat) :=
  (vs.getD u dfltVertex).edges

/-- Stored timestamp of vertex `v` in a vertex array. -/
def tsOf (vs : List CompleteGraphVertex) (v : Nat) : Nat :=
  (vs.getD v dfltVertex).timestamp

/-- A vertex counts as visited in the current traversal iff its stored
timestamp equals the active timestamp. -/
def visitedAt (vs : List CompleteGraphVertex) (active v : Nat) : Prop :=
  tsOf vs v = active

instance (vs : List CompleteGraphVertex) (active v : Nat) :
    Decidable (visitedAt vs active v) := by
  unfold visitedAt; infer_instance

/-- Reference walk semantics over an adjacency function: `HasDist E s v d`
holds when some directed walk from `s` to `v` along the stored adjacency has
total weight `d`. -/
inductive HasDist (E : Nat → List (Nat × Nat)) (s : Nat) : Nat → Nat → Prop where
  | base : HasDist E s s 0
  | step : ∀ {u d v w}, HasDist E s u d → alookup v (E u) = some w →
      HasDist E s v (d + w)

/-- The reference (brute-force) notion of true shortest distance: a walk of
weight `d` exists and no walk is lighter. -/
def IsShortest (E : Nat → List (Nat × Nat)) (s v d : Nat) : Prop :=
  HasDist E s v d ∧ ∀ d2, HasDist E s v d2 → d ≤ d2

/-- Reachability in the reference semantics. -/
def Reachable (E : Nat → List (Nat × Nat)) (s v : Nat) : Prop :=
  ∃ d, HasDist E s v d

/-- Well-formedness of an engine over `n = vertex_num` vertices: the vertex
array has the right length, the vertex count is representable, and every
stored adjacency targets an in-range vertex with distinct neighbor keys
(`BTreeMap` keys are distinct).  These are exactly the properties
`CompleteGraph::new` establishes for in-range input edges. -/
structure EngineWF (g : CompleteGraph) : Prop where
  len_eq : g.vertices.length = g.vertex_num
  num_le : g.vertex_num ≤ usizeMAX
  edge_range : ∀ u, ∀ nb ∈ edgesOf g.vertices u, nb.1 < g.vertex_num
  edge_nodup : ∀ u, ((edgesOf g.vertices u).map Prod.fst).Nodup

/-- The timestamp sanity every reachable engine state enjoys: no stored
timestamp is ahead of the clock. -/
def TsOK (g : CompleteGraph) : Prop :=
  ∀ v, tsOf g.vertices v ≤ g.active_timestamp

/-- Predecessor chains inside a result map: `Chain ce s v j` means following
recorded predecessors from `v` reaches the source `s` in `j` steps. -/
inductive Chain (ce : List (Nat × (Nat × Nat))) (s : Nat) : Nat → Nat → Prop where
  | base : Chain ce s s 0
  | step : ∀ {v p w j}, alookup v ce = some (p, w) → Chain ce s p j →
      Chain ce s v (j + 1)

/-- The raw predecessor walk that `get_path` traverses: `RawChain ce a v raw`
lists, starting at `v` and stopping at `a`, each visited vertex with the
cumulative weight its map entry records. -/
inductive RawChain (ce : List (Nat × (Nat × Nat))) (a : Nat) :
    Nat → List (Nat × Nat) → Prop where
  | nil : RawChain ce a a []
  | cons : ∀ {v p w raw}, v ≠ a → alookup v ce = some (p, w) →
      RawChain ce a p raw → RawChain ce a v ((v, w) :: raw)

/-- Convert a backward list of cumulative weights into incremental ones, the
way `get_path` does on the fly: each element keeps its vertex and subtracts
the next (closer to the source) cumulative weight. -/
def diffAdjust : List (Nat × Nat) → List (Nat × Nat)
  | [] => []
  | [e] => [e]
  | (x, w) :: (y, w2) :: rest => (x, w - w2) :: diffAdjust ((y, w2) :: rest)

/-- Subtract `w` from the last element of a partial path (the mutation
`path[previous_index].1 -= weight` performs on the element pushed before). -/
def adjustLast (acc : List (Nat × Nat)) (w : Nat) : List (Nat × Nat) :=
  match acc.getLast? with
  | none => acc
  | some e => acc.dropLast ++ [(e.1, e.2 - w)]

/-- Number of vertices not yet stamped with the active timestamp; the strictly
decreasing measure of the traversal loop. -/
def countUnvisited (vs : List CompleteGraphVertex) (active n : Nat) : Nat :=
  ((Finset.range n).filter (fun v => ¬ visitedAt vs active v)).card

/-- The update condition claimed by the spec's Tie-Break Comparator (§4.2): on
an exact weight tie it compares index-distances to the new candidate's
predecessor, which is the popped vertex `target` itself. -/
def specClaimedTieUpdate (neighbor target existing_previous : Nat) : Prop :=
  index_distance neighbor target < index_distance neighbor existing_previous ∨
    (index_distance neighbor target = index_distance neighbor existing_previous ∧
      target < existing_previous)

/-- Repeated application of `invalidate_previous_dijkstra` (used to reach the
clock-wrap states that need `usize::MAX` calls). -/
def iterInvalidate : Nat → CompleteGraph → CompleteGraph
  | 0, g => g
  | k + 1, g => iterInvalidate k (g.invalidate_previous_dijkstra).2

/-! ## Association-list and frontier helper lemmas -/

theorem alookup_eq_none {α : Type} {k : Nat} {l : List (Nat × α)} :
    alookup k l = none ↔ k ∉ l.map Prod.fst := by
  induction l with
  | nil => simp [alookup]
  | cons e rest ih =>
    by_cases h : e.1 = k
    · simp [alookup, h]
    · simp [alookup, h, ih, Ne.symm h]

theorem alookup_mem {α : Type} {k : Nat} {v : α} {l : List (Nat × α)}
    (h : alookup k l = some v) : (k, v) ∈ l := by
  induction l with
  | nil => simp [alookup] at h
  | cons e rest ih =>
    obtain ⟨ek, ev⟩ := e
    by_cases he : ek = k
    · subst he
      simp only [alookup, if_pos rfl] at h
      cases h
      exact List.mem_cons_self _ _
    · simp only [alookup, if_neg he] at h
      exact List.mem_cons_of_mem _ (ih h)

theorem alookup_of_mem_nodup {α : Type} {k : Nat} {v : α} {l : List (Nat × α)}
    (hnd : (l.map Prod.fst).Nodup) (h : (k, v) ∈ l) : alookup k l = some v := by
  induction l with
  | nil => simp at h
  | cons e rest ih =>
    simp only [List.map_cons, List.nodup_cons] at hnd
    rcases List.mem_cons.mp h with h | h
    · cases h
      simp [alookup]
    · have hk : e.1 ≠ k := by
        intro he
        exact hnd.1 (he ▸ List.mem_map_of_mem Prod.fst h)
      simp [alookup, hk, ih hnd.2 h]

theorem alookup_isSome_of_mem {α : Type} {k : Nat} {v : α} {l : List (Nat × α)}
    (h : (k, v) ∈ l) : ∃ v2, alookup k l = some v2 := by
  induction l with
  | nil => simp at h
  | cons e rest ih =>
    by_cases he : e.1 = k
    · exact ⟨e.2, by simp [alookup, he]⟩
    · rcases List.mem_cons.mp h with h | h
      · cases h; simp at he
      · simpa [alookup, he] using ih h

theorem alookup_append {α : Type} (k : Nat) (l1 l2 : List (Nat × α)) :
    alookup k (l1 ++ l2) =
      match alookup k l1 with
      | some v => some v
      | none => alookup k l2 := by
  induction l1 with
  | nil => simp [alookup]
  | cons e rest ih =>
    by_cases he : e.1 = k <;> simp [alookup, he, ih]

theorem alookup_btreeInsert_self {α : Type} (k : Nat) (v : α) (l : List (Nat × α)) :
    alookup k (btreeInsert k v l) = some v := by
  induction l with
  | nil => simp [btreeInsert, alookup]
  | cons e rest ih =>
    rcases Nat.lt_trichotomy k e.1 with h | h | h
    · simp [btreeInsert, h, alookup]
    · simp [btreeInsert, h.symm, Nat.lt_irrefl, alookup]
    · have h1 : ¬ k < e.1 := Nat.not_lt.mpr (Nat.le_of_lt h)
      have h2 : k ≠ e.1 := Nat.ne_of_gt h
      have h3 : e.1 ≠ k := Nat.ne_of_lt h
      simp [btreeInsert, h1, h2, alookup, h3, ih]

theorem alookup_btreeInsert_ne {α : Type} {k k2 : Nat} (v : α) (l : List (Nat × α))
    (h : k2 ≠ k) : alookup k2 (btreeInsert k v l) = alookup k2 l := by
  induction l with
  | nil => simp [btreeInsert, alookup, Ne.symm h]
  | cons e rest ih =>
    obtain ⟨ek, ev⟩ := e
    by_cases h1 : k < ek
    · simp [btreeInsert, h1, alookup, Ne.symm h]
    · by_cases h2 : k = ek
      · subst h2
        simp [btreeInsert, Nat.lt_irrefl, alookup, Ne.symm h]
      · simp [btreeInsert, h1, h2, alookup, ih]

theorem length_btreeInsert_fresh {α : Type} {k : Nat} (v : α) {l : List (Nat × α)}
    (h : alookup k l = none) : (btreeInsert k v l).length = l.length + 1 := by
  induction l with
  | nil => simp [btreeInsert]
  | cons e rest ih =>
    simp only [alookup] at h
    by_cases he : e.1 = k
    · simp [he] at h
    · simp only [he, ite_false] at h
      rcases Nat.lt_trichotomy k e.1 with hc | hc | hc
      · simp [btreeInsert, hc]
      · exact absurd hc.symm he
      · have h1 : ¬ k < e.1 := Nat.not_lt.mpr (Nat.le_of_lt hc)
        have h2 : k ≠ e.1 := Nat.ne_of_gt hc
        simp [btreeInsert, h1, h2, ih h]

/-! ### popMin -/

theorem popMin_eq_none {pq : List (Nat × PriorityElement)} :
    popMin pq = none ↔ pq = [] := by
  cases pq with
  | nil => simp [popMin]
  | cons e rest =>
    simp only [popMin]
    cases h : popMin rest with
    | none => simp
    | some p =>
      obtain ⟨e2, rest2⟩ := p
      by_cases hle : e.2.weight ≤ e2.2.weight <;> simp [hle]

theorem popMin_split {pq pq2 : List (Nat × PriorityElement)}
    {k : Nat} {pe : PriorityElement}
    (h : popMin pq = some ((k, pe), pq2)) :
    ∃ l1 l2, pq = l1 ++ (k, pe) :: l2 ∧ pq2 = l1 ++ l2 := by
  induction pq generalizing pq2 with
  | nil => simp [popMin] at h
  | cons e rest ih =>
    simp only [popMin] at h
    cases hr : popMin rest with
    | none =>
      rw [hr] at h
      have hrest : rest = [] := popMin_eq_none.mp hr
      cases h
      exact ⟨[], [], by simp [hrest], by simp⟩
    | some p =>
      obtain ⟨e2, rest2⟩ := p
      rw [hr] at h
      have h2 : (if e.2.weight ≤ e2.2.weight then some (e, rest)
          else some (e2, e :: rest2)) = some ((k, pe), pq2) := h
      by_cases hle : e.2.weight ≤ e2.2.weight
      · rw [if_pos hle] at h2
        cases h2
        exact ⟨[], rest, by simp, by simp⟩
      · rw [if_neg hle] at h2
        cases h2
        obtain ⟨l1, l2, ha, hb⟩ := ih hr
        exact ⟨e :: l1, l2, by simp [ha], by simp [hb]⟩

theorem popMin_min {pq pq2 : List (Nat × PriorityElement)}
    {m : Nat × PriorityElement}
    (h : popMin pq = some (m, pq2)) :
    ∀ x ∈ pq, m.2.weight ≤ x.2.weight := by
  induction pq generalizing m pq2 with
  | nil => simp [popMin] at h
  | cons e rest ih =>
    simp only [popMin] at h
    cases hr : popMin rest with
    | none =>
      rw [hr] at h
      have hrest : rest = [] := popMin_eq_none.mp hr
      cases h
      intro x hx
      rcases List.mem_cons.mp hx with hx | hx
      · exact hx ▸ Nat.le_refl _
      · simp [hrest] at hx
    | some p =>
      obtain ⟨e2, rest2⟩ := p
      rw [hr] at h
      have h2 : (if e.2.weight ≤ e2.2.weight then some (e, rest)
          else some (e2, e :: rest2)) = some (m, pq2) := h
      by_cases hle : e.2.weight ≤ e2.2.weight
      · rw [if_pos hle] at h2
        cases h2
        intro x hx
        rcases List.mem_cons.mp hx with hx | hx
        · exact hx ▸ Nat.le_refl _
        · exact Nat.le_trans hle (ih hr x hx)
      · rw [if_neg hle] at h2
        cases h2
        intro x hx
        rcases List.mem_cons.mp hx with hx | hx
        · exact hx ▸ Nat.le_of_lt (Nat.lt_of_not_le hle)
        · exact ih hr x hx

/-! ### change_priority / push -/

theorem pqChangePriority_keys (k : Nat) (pe : PriorityElement)
    (pq : List (Nat × PriorityElement)) :
    (pqChangePriority k pe pq).map Prod.fst = pq.map Prod.fst := by
  induction pq with
  | nil => rfl
  | cons e rest ih =>
    simp only [pqChangePriority, List.map_cons] at ih ⊢
    by_cases he : e.1 = k
    · rw [if_pos he, ih]
      simp [he]
    · rw [if_neg he, ih]

theorem alookup_pqChangePriority_self {k : Nat} {pe pe0 : PriorityElement}
    {pq : List (Nat × PriorityElement)} (h : alookup k pq = some pe0) :
    alookup k (pqChangePriority k pe pq) = some pe := by
  induction pq with
  | nil => simp [alookup] at h
  | cons e rest ih =>
    simp only [pqChangePriority, List.map_cons] at ih ⊢
    by_cases he : e.1 = k
    · rw [if_pos he]
      simp [alookup]
    · rw [if_neg he]
      simp only [alookup, he, ite_false] at h ⊢
      exact ih h

theorem alookup_pqChangePriority_none {k : Nat} {pe : PriorityElement}
    {pq : List (Nat × PriorityElement)} (h : alookup k pq = none) :
    alookup k (pqChangePriority k pe pq) = none := by
  induction pq with
  | nil => rfl
  | cons e rest ih =>
    simp only [pqChangePriority, List.map_cons] at ih ⊢
    by_cases he : e.1 = k
    · simp [alookup, he] at h
    · rw [if_neg he]
      simp only [alookup, he, ite_false] at h ⊢
      exact ih h

theorem alookup_pqChangePriority_ne {k k2 : Nat} (pe : PriorityElement)
    (pq : List (Nat × PriorityElement)) (h : k2 ≠ k) :
    alookup k2 (pqChangePriority k pe pq) = alookup k2 pq := by
  induction pq with
  | nil => rfl
  | cons e rest ih =>
    simp only [pqChangePriority, List.map_cons] at ih ⊢
    by_cases he : e.1 = k
    · rw [if_pos he]
      have hk : ¬ k = k2 := Ne.symm h
      have he2 : ¬ e.1 = k2 := by rw [he]; exact hk
      simp only [alookup, hk, ite_false, he2, ih]
    · rw [if_neg he]
      simp only [alookup, ih]

theorem mem_pqChangePriority {k : Nat} {pe : PriorityElement}
    {pq : List (Nat × PriorityElement)} {x : Nat × PriorityElement}
    (h : x ∈ pqChangePriority k pe pq) :
    x ∈ pq ∨ (x = (k, pe) ∧ ∃ pe0, (k, pe0) ∈ pq) := by
  induction pq with
  | nil => simp [pqChangePriority] at h
  | cons e rest ih =>
    simp only [pqChangePriority, List.map_cons, List.mem_cons] at h
    rcases h with h | h
    · by_cases he : e.1 = k
      · rw [if_pos he] at h
        exact Or.inr ⟨h, e.2, by cases e; simp at he; simp [he]⟩
      · rw [if_neg he] at h
        exact Or.inl (h ▸ List.mem_cons_self _ _)
    · rcases ih h with h2 | h2
      · exact Or.inl (List.mem_cons_of_mem _ h2)
      · exact Or.inr ⟨h2.1, h2.2.imp (fun _ => List.mem_cons_of_mem _)⟩

theorem alookup_pqPush_of_some {k k2 : Nat} {pe : PriorityElement} {v : PriorityElement}
    {pq : List (Nat × PriorityElement)} (h : alookup k2 pq = some v) :
    alookup k2 (pqPush k pe pq) = some v := by
  rw [pqPush, alookup_append, h]

theorem alookup_pqPush_of_none {k k2 : Nat} {pe : PriorityElement}
    {pq : List (Nat × PriorityElement)} (h : alookup k2 pq = none) :
    alookup k2 (pqPush k pe pq) = if k = k2 then some pe else none := by
  rw [pqPush, alookup_append, h]
  simp [alookup]

theorem pqPush_keys (k : Nat) (pe : PriorityElement)
    (pq : List (Nat × PriorityElement)) :
    (pqPush k pe pq).map Prod.fst = pq.map Prod.fst ++ [k] := by
  simp [pqPush]

/-! ### List.set / getD -/

theorem list_getD_set_self {α : Type} {l : List α} {i : Nat} (x d : α)
    (h : i < l.length) : (l.set i x).getD i d = x := by
  induction l generalizing i with
  | nil => simp at h
  | cons a rest ih =>
    cases i with
    | zero => rfl
    | succ n =>
      simp only [List.set, List.getD, List.length_cons] at *
      exact ih (Nat.lt_of_succ_lt_succ h)

theorem list_getD_set_ne {α : Type} {l : List α} {i j : Nat} (x d : α)
    (h : j ≠ i) : (l.set i x).getD j d = l.getD j d := by
  induction l generalizing i j with
  | nil => rfl
  | cons a rest ih =>
    cases i with
    | zero =>
      cases j with
      | zero => exact absurd rfl h
      | succ m => rfl
    | succ n =>
      cases j with
      | zero => rfl
      | succ m =>
        simp only [List.set, List.getD]
        exact ih (fun hc => h (by rw [hc]))

theorem list_set_of_le {α : Type} {l : List α} {i : Nat} (x : α)
    (h : l.length ≤ i) : l.set i x = l := by
  induction l generalizing i with
  | nil => rfl
  | cons a rest ih =>
    cases i with
    | zero => simp at h
    | succ n =>
      simp only [List.set]
      rw [ih (Nat.le_of_succ_le_succ h)]

/-! ### Marking a vertex visited -/

theorem edgesOf_mark (vs : List CompleteGraphVertex) (t a : Nat) :
    ∀ u, edgesOf (markVisited vs t a) u = edgesOf vs u := by
  intro u
  unfold markVisited
  by_cases hl : t < vs.length
  · by_cases hu : u = t
    · subst hu
      unfold edgesOf
      rw [list_getD_set_self _ _ hl]
    · unfold edgesOf
      rw [list_getD_set_ne _ _ hu]
  · rw [list_set_of_le _ (Nat.le_of_not_lt hl)]

theorem tsOf_mark_self {vs : List CompleteGraphVertex} {t : Nat} (a : Nat)
    (h : t < vs.length) :
    tsOf (markVisited vs t a) t = a := by
  unfold markVisited tsOf
  rw [list_getD_set_self _ _ h]

theorem tsOf_mark_ne (vs : List CompleteGraphVertex) (t a : Nat) {v : Nat}
    (h : v ≠ t) :
    tsOf (markVisited vs t a) v = tsOf vs v := by
  unfold markVisited tsOf
  rw [list_getD_set_ne _ _ h]

theorem visitedAt_mark {vs : List CompleteGraphVertex} {t : Nat} (a : Nat)
    (h : t < vs.length) (v : Nat) :
    visitedAt (markVisited vs t a) a v ↔ (v = t ∨ visitedAt vs a v) := by
  by_cases hv : v = t
  · subst hv
    unfold visitedAt
    rw [tsOf_mark_self a h]
    simp
  · unfold visitedAt
    rw [tsOf_mark_ne vs t a hv]
    simp [hv]

/-! ### Reference shortest-distance facts -/

theorem isShortest_source (E : Nat → List (Nat × Nat)) (s : Nat) :
    IsShortest E s s 0 :=
  ⟨HasDist.base, fun _ _ => Nat.zero_le _⟩

theorem isShortest_unique {E : Nat → List (Nat × Nat)} {s v d d2 : Nat}
    (h : IsShortest E s v d) (h2 : IsShortest E s v d2) : d = d2 :=
  Nat.le_antisymm (h.2 d2 h2.1) (h2.2 d h.1)

theorem chain_extend {ce ce2 : List (Nat × (Nat × Nat))} {s : Nat}
    (hsub : ∀ v x, alookup v ce = some x → alookup v ce2 = some x) :
    ∀ {v j}, Chain ce s v j → Chain ce2 s v j := by
  intro v j h
  induction h with
  | base => exact Chain.base
  | step hl _ ih => exact Chain.step (hsub _ _ hl) ih

/-! ## The traversal-loop invariant -/

section LoopInvariant

variable (E : Nat → List (Nat × Nat)) (n s active : Nat)

/-- Invariant of the Dijkstra loop in `all_edges_with_terminate`, over the
adjacency `E`, vertex count `n`, source `s` and active timestamp.  Frontier
keys are distinct, in range and unvisited; every frontier entry is either the
initial source entry or records a settled predecessor whose shortest distance
plus the connecting edge gives the tentative weight; every result-map entry is
settled and correct; visited vertices are exactly the source plus the result
map; every edge out of a visited vertex is covered by the frontier; and
predecessor chains in the result map lead back to the source. -/
structure LoopInv (vs : List CompleteGraphVertex)
    (pq : List (Nat × PriorityElement)) (ce : List (Nat × (Nat × Nat))) :
    Prop where
  len_eq : vs.length = n
  active_pos : 0 < active
  edges_eq : ∀ u, edgesOf vs u = E u
  keys_nodup : (pq.map Prod.fst).Nodup
  pq_range : ∀ x ∈ pq, x.1 < n
  pq_unvisited : ∀ x ∈ pq, ¬ visitedAt vs active x.1
  pq_entry : ∀ x ∈ pq, (x.1 = s ∧ x.2 = ⟨0, s⟩) ∨
      (visitedAt vs active x.2.previous ∧
        ∃ w, alookup x.1 (E x.2.previous) = some w ∧
          ∃ dp, IsShortest E s x.2.previous dp ∧ x.2.weight = dp + w)
  ce_entry : ∀ v p w, alookup v ce = some (p, w) → v ≠ s ∧ v < n ∧
      visitedAt vs active v ∧ IsShortest E s v w ∧
      visitedAt vs active p ∧
      ∃ wpv, alookup v (E p) = some wpv ∧
        ∃ dp, IsShortest E s p dp ∧ dp + wpv = w
  visited_done : ∀ v, visitedAt vs active v → v = s ∨ ∃ x, alookup v ce = some x
  frontier : ∀ u, visitedAt vs active u → ∀ du, IsShortest E s u du →
      ∀ nb ∈ E u, visitedAt vs active nb.1 ∨
        ∃ pe, alookup nb.1 pq = some pe ∧ pe.weight ≤ du + nb.2
  source_pq : ¬ visitedAt vs active s → alookup s pq = some ⟨0, s⟩
  chainOK : ∀ v x, alookup v ce = some x → ∃ j, j ≤ ce.length ∧ Chain ce s v j

variable {E n s active}

/-- Every frontier entry's tentative weight is attained by some walk. -/
theorem LoopInv.pq_hasdist {vs pq ce} (inv : LoopInv E n s active vs pq ce) :
    ∀ x ∈ pq, HasDist E s x.1 x.2.weight := by
  intro x hx
  rcases inv.pq_entry x hx with ⟨h1, h2⟩ | ⟨_, w, hw, dp, hdp, hwt⟩
  · rw [h1, h2]
    exact HasDist.base
  · rw [hwt]
    exact HasDist.step hdp.1 hw

/-- Every visited vertex has a settled true shortest distance. -/
theorem LoopInv.visited_shortest {vs pq ce} (inv : LoopInv E n s active vs pq ce)
    {u : Nat} (hu : visitedAt vs active u) : ∃ du, IsShortest E s u du := by
  rcases inv.visited_done u hu with h | ⟨x, hx⟩
  · exact ⟨0, h ▸ isShortest_source E s⟩
  · obtain ⟨p, w⟩ := x
    exact ⟨w, (inv.ce_entry u p w hx).2.2.2.1⟩

/-- The cover lemma: a walk from the source to an unvisited vertex is
dominated by some frontier entry. -/
theorem LoopInv.cover {vs pq ce} (inv : LoopInv E n s active vs pq ce)
    {z d : Nat} (hd : HasDist E s z d) (hz : ¬ visitedAt vs active z) :
    ∃ k pk, alookup k pq = some pk ∧ pk.weight ≤ d := by
  induction hd with
  | base => exact ⟨s, ⟨0, s⟩, inv.source_pq hz, Nat.le_refl 0⟩
  | @step u d2 v w hu hw ih =>
    by_cases huv : visitedAt vs active u
    · obtain ⟨du, hdu⟩ := inv.visited_shortest huv
      rcases inv.frontier u huv du hdu (v, w) (alookup_mem hw) with h | ⟨pe, hpe, hle⟩
      · exact absurd h hz
      · exact ⟨v, pe, hpe, Nat.le_trans hle (Nat.add_le_add_right (hdu.2 d2 hu) w)⟩
    · obtain ⟨k, pk, hpk, hle⟩ := ih huv
      exact ⟨k, pk, hpk, Nat.le_trans hle (Nat.le_add_right d2 w)⟩

/-- The popped minimum frontier entry carries the true shortest distance of
its vertex. -/
theorem LoopInv.pop_shortest {vs pq pq2 ce} {target : Nat} {pe : PriorityElement}
    (inv : LoopInv E n s active vs pq ce)
    (hpop : popMin pq = some ((target, pe), pq2)) :
    IsShortest E s target pe.weight := by
  obtain ⟨l1, l2, hsplit, _⟩ := popMin_split hpop
  have hmem : (target, pe) ∈ pq := by
    rw [hsplit]
    exact List.mem_append_right l1 (List.mem_cons_self _ _)
  refine ⟨inv.pq_hasdist (target, pe) hmem, ?_⟩
  intro d2 hd2
  obtain ⟨k, pk, hpk, hle⟩ := inv.cover hd2 (inv.pq_unvisited (target, pe) hmem)
  exact Nat.le_trans (popMin_min hpop (k, pk) (alookup_mem hpk)) hle

/-- Bundled consequences of popping from a frontier with distinct keys. -/
theorem popMin_facts {pq pq2 : List (Nat × PriorityElement)} {target : Nat}
    {pe : PriorityElement} (hnd : (pq.map Prod.fst).Nodup)
    (hpop : popMin pq = some ((target, pe), pq2)) :
    (target, pe) ∈ pq ∧ alookup target pq = some pe ∧
    (pq2.map Prod.fst).Nodup ∧ (∀ x ∈ pq2, x ∈ pq) ∧
    alookup target pq2 = none ∧
    (∀ k, k ≠ target → alookup k pq2 = alookup k pq) := by
  obtain ⟨l1, l2, h1, h2⟩ := popMin_split hpop
  subst h1
  subst h2
  have hsub : List.Sublist (l1 ++ l2) (l1 ++ (target, pe) :: l2) :=
    List.Sublist.append_left (List.sublist_cons_self _ _) l1
  have hmem : (target, pe) ∈ l1 ++ (target, pe) :: l2 :=
    List.mem_append_right l1 (List.mem_cons_self _ _)
  have hkeys : ((l1 ++ (target, pe) :: l2).map Prod.fst) =
      l1.map Prod.fst ++ target :: l2.map Prod.fst := by simp
  have htl1 : target ∉ l1.map Prod.fst := by
    rw [hkeys] at hnd
    intro hc
    exact (List.disjoint_of_nodup_append hnd) hc (List.mem_cons_self _ _)
  have htl2 : target ∉ l2.map Prod.fst := by
    rw [hkeys] at hnd
    have := (List.nodup_append.mp hnd).2.1
    exact (List.nodup_cons.mp this).1
  refine ⟨hmem, alookup_of_mem_nodup hnd hmem, (hsub.map Prod.fst).nodup hnd,
    fun x hx => hsub.mem hx, ?_, ?_⟩
  · rw [alookup_eq_none]
    simp only [List.map_append, List.mem_append]
    rintro (h | h)
    · exact htl1 h
    · exact htl2 h
  · intro k hk
    rw [alookup_append, alookup_append]
    cases alookup k l1 with
    | some v => rfl
    | none => simp [alookup, Ne.symm hk]

/-! ### relaxUpdate facts -/

theorem index_distance_self (a : Nat) : index_distance a a = 0 := by
  simp [index_distance]

theorem index_distance_eq_zero {a b : Nat} (h : index_distance a b = 0) :
    b = a := by
  unfold index_distance at h
  split at h <;> omega

theorem relaxUpdate_le {nbr prev ew exw exp : Nat}
    (h : relaxUpdate nbr prev ew exw exp = true) : ew ≤ exw := by
  unfold relaxUpdate at h
  by_cases h1 : ew < exw
  · exact Nat.le_of_lt h1
  · by_cases h2 : ew = exw
    · exact Nat.le_of_eq h2
    · rw [if_neg h1, if_neg h2] at h
      cases h

theorem relaxUpdate_false_ge {nbr prev ew exw exp : Nat}
    (h : relaxUpdate nbr prev ew exw exp = false) : exw ≤ ew := by
  unfold relaxUpdate at h
  by_cases h1 : ew < exw
  · rw [if_pos h1] at h
    cases h
  · exact Nat.le_of_not_lt h1

theorem relaxUpdate_source (prev ew : Nat) (sv : Nat) :
    relaxUpdate sv prev ew 0 sv = false := by
  unfold relaxUpdate
  rw [if_neg (Nat.not_lt_zero ew)]
  by_cases h2 : ew = 0
  · rw [if_pos h2]
    simp only [index_distance_self, decide_eq_false_iff_not]
    rintro (h | ⟨h3, h4⟩)
    · exact Nat.not_lt_zero _ h
    · rw [index_distance_eq_zero h3] at h4
      exact Nat.lt_irrefl _ h4
  · rw [if_neg h2]

theorem nodup_append_singleton {α : Type} {l : List α} {a : α}
    (hnd : l.Nodup) (ha : a ∉ l) : (l ++ [a]).Nodup := by
  rw [List.nodup_append]
  exact ⟨hnd, List.nodup_singleton a, by simpa using ha⟩

/-! ### Relaxation preserves the frontier invariants -/

theorem relaxOne_eq_some {vs : List CompleteGraphVertex}
    {active target weight previous : Nat} {pq : List (Nat × PriorityElement)}
    {nb : Nat × Nat} {pe2 : PriorityElement} (hlk : alookup nb.1 pq = some pe2) :
    relaxOne vs active target weight previous pq nb =
      if relaxUpdate nb.1 previous (weight + nb.2) pe2.weight pe2.previous
      then pqChangePriority nb.1 ⟨weight + nb.2, target⟩ pq else pq := by
  simp only [relaxOne, hlk]

theorem relaxOne_eq_none {vs : List CompleteGraphVertex}
    {active target weight previous : Nat} {pq : List (Nat × PriorityElement)}
    {nb : Nat × Nat} (hlk : alookup nb.1 pq = none) :
    relaxOne vs active target weight previous pq nb =
      if (vs.getD nb.1 dfltVertex).timestamp ≠ active
      then pqPush nb.1 ⟨weight + nb.2, target⟩ pq else pq := by
  simp only [relaxOne, hlk]

/-- Invariant carried through the fold over the popped vertex's adjacency:
the frontier keeps its structural properties (relative to the
already-updated vertex array `vs2`), existing tentative weights never
increase relative to the pre-fold frontier `pq0`, and every processed edge
out of `target` is either settled or dominated by a frontier entry. -/
structure RelaxInv (E : Nat → List (Nat × Nat)) (n s active : Nat)
    (vs2 : List CompleteGraphVertex) (target dt : Nat)
    (pq0 pq : List (Nat × PriorityElement)) (processed : List (Nat × Nat)) :
    Prop where
  keys_nodup : (pq.map Prod.fst).Nodup
  pq_range : ∀ x ∈ pq, x.1 < n
  pq_unvisited : ∀ x ∈ pq, ¬ visitedAt vs2 active x.1
  pq_entry : ∀ x ∈ pq, (x.1 = s ∧ x.2 = ⟨0, s⟩) ∨
      (visitedAt vs2 active x.2.previous ∧
        ∃ w, alookup x.1 (E x.2.previous) = some w ∧
          ∃ dp, IsShortest E s x.2.previous dp ∧ x.2.weight = dp + w)
  source_pq : ¬ visitedAt vs2 active s → alookup s pq = some ⟨0, s⟩
  mono : ∀ k pk0, alookup k pq0 = some pk0 →
      ∃ pk, alookup k pq = some pk ∧ pk.weight ≤ pk0.weight
  covered : ∀ nb ∈ processed, visitedAt vs2 active nb.1 ∨
      ∃ pk, alookup nb.1 pq = some pk ∧ pk.weight ≤ dt + nb.2

theorem relaxOne_preserve
    (hE : ∀ u, ∀ nb ∈ E u, nb.1 < n)
    (hEnd : ∀ u, ((E u).map Prod.fst).Nodup)
    {vs2 : List CompleteGraphVertex} {target dt : Nat} (prev : Nat)
    {pq0 pq : List (Nat × PriorityElement)} {processed : List (Nat × Nat)}
    (htv : visitedAt vs2 active target)
    (hdt : IsShortest E s target dt)
    (inv : RelaxInv E n s active vs2 target dt pq0 pq processed)
    {nb : Nat × Nat} (hnb : nb ∈ E target) :
    RelaxInv E n s active vs2 target dt pq0
      (relaxOne vs2 active target dt prev pq nb) (processed ++ [nb]) := by
  have hnbhd : alookup nb.1 (E target) = some nb.2 :=
    alookup_of_mem_nodup (hEnd target) (by cases nb; exact hnb)
  cases hlk : alookup nb.1 pq with
  | some pe2 =>
    rw [relaxOne_eq_some hlk]
    have hmem2 : (nb.1, pe2) ∈ pq := alookup_mem hlk
    cases hb : relaxUpdate nb.1 prev (dt + nb.2) pe2.weight pe2.previous with
    | false =>
      rw [if_neg Bool.false_ne_true]
      have hge : pe2.weight ≤ dt + nb.2 := relaxUpdate_false_ge hb
      refine ⟨inv.keys_nodup, inv.pq_range, inv.pq_unvisited, inv.pq_entry,
        inv.source_pq, inv.mono, ?_⟩
      intro nb2 hnb2
      rcases List.mem_append.mp hnb2 with h | h
      · exact inv.covered nb2 h
      · rw [List.mem_singleton.mp h]
        exact Or.inr ⟨pe2, hlk, hge⟩
    | true =>
      rw [if_pos rfl]
      have hew_le : dt + nb.2 ≤ pe2.weight := relaxUpdate_le hb
      refine ⟨?_, ?_, ?_, ?_, ?_, ?_, ?_⟩
      · rw [pqChangePriority_keys]
        exact inv.keys_nodup
      · intro x hx
        rcases mem_pqChangePriority hx with h | ⟨h, _⟩
        · exact inv.pq_range x h
        · rw [h]
          exact hE target nb hnb
      · intro x hx
        rcases mem_pqChangePriority hx with h | ⟨h, _⟩
        · exact inv.pq_unvisited x h
        · rw [h]
          exact inv.pq_unvisited (nb.1, pe2) hmem2
      · intro x hx
        rcases mem_pqChangePriority hx with h | ⟨h, _⟩
        · exact inv.pq_entry x h
        · rw [h]
          exact Or.inr ⟨htv, nb.2, hnbhd, dt, hdt, rfl⟩
      · intro hs
        have h0 := inv.source_pq hs
        by_cases hns : nb.1 = s
        · subst hns
          obtain ⟨ew2, ep2⟩ := pe2
          have hpe2 : (⟨ew2, ep2⟩ : PriorityElement) = ⟨0, nb.1⟩ := by
            rw [hlk] at h0
            exact Option.some.inj h0
          rw [hpe2] at hb
          rw [relaxUpdate_source prev (dt + nb.2) nb.1] at hb
          cases hb
        · rw [alookup_pqChangePriority_ne _ _ (Ne.symm hns)]
          exact h0
      · intro k pk0 hk0
        obtain ⟨pk, hpk, hle⟩ := inv.mono k pk0 hk0
        by_cases hkn : k = nb.1
        · subst hkn
          have hpe : pk = pe2 := by
            rw [hlk] at hpk
            exact (Option.some.inj hpk).symm
          exact ⟨⟨dt + nb.2, target⟩, alookup_pqChangePriority_self hlk,
            Nat.le_trans hew_le (hpe ▸ hle)⟩
        · exact ⟨pk, by rw [alookup_pqChangePriority_ne _ _ hkn]; exact hpk, hle⟩
      · intro nb2 hnb2
        rcases List.mem_append.mp hnb2 with h | h
        · rcases inv.covered nb2 h with h2 | ⟨pk, hpk, hle⟩
          · exact Or.inl h2
          · by_cases hkn : nb2.1 = nb.1
            · rw [hkn] at hpk
              have hpe : pk = pe2 := by
                rw [hlk] at hpk
                exact (Option.some.inj hpk).symm
              refine Or.inr ⟨⟨dt + nb.2, target⟩, ?_, ?_⟩
              · rw [hkn]
                exact alookup_pqChangePriority_self hlk
              · exact Nat.le_trans hew_le (hpe ▸ hle)
            · exact Or.inr ⟨pk,
                by rw [alookup_pqChangePriority_ne _ _ hkn]; exact hpk, hle⟩
        · rw [List.mem_singleton.mp h]
          exact Or.inr ⟨⟨dt + nb.2, target⟩, alookup_pqChangePriority_self hlk,
            Nat.le_refl _⟩
  | none =>
    rw [relaxOne_eq_none hlk]
    by_cases hts : (vs2.getD nb.1 dfltVertex).timestamp ≠ active
    · rw [if_pos hts]
      have hnotmem : nb.1 ∉ pq.map Prod.fst := alookup_eq_none.mp hlk
      refine ⟨?_, ?_, ?_, ?_, ?_, ?_, ?_⟩
      · rw [pqPush_keys]
        exact nodup_append_singleton inv.keys_nodup hnotmem
      · intro x hx
        rcases List.mem_append.mp hx with h | h
        · exact inv.pq_range x h
        · rcases List.mem_singleton.mp h with rfl
          exact hE target nb hnb
      · intro x hx
        rcases List.mem_append.mp hx with h | h
        · exact inv.pq_unvisited x h
        · rcases List.mem_singleton.mp h with rfl
          exact hts
      · intro x hx
        rcases List.mem_append.mp hx with h | h
        · exact inv.pq_entry x h
        · rcases List.mem_singleton.mp h with rfl
          exact Or.inr ⟨htv, nb.2, hnbhd, dt, hdt, rfl⟩
      · intro hs
        exact alookup_pqPush_of_some (inv.source_pq hs)
      · intro k pk0 hk0
        obtain ⟨pk, hpk, hle⟩ := inv.mono k pk0 hk0
        exact ⟨pk, alookup_pqPush_of_some hpk, hle⟩
      · intro nb2 hnb2
        rcases List.mem_append.mp hnb2 with h | h
        · rcases inv.covered nb2 h with h2 | ⟨pk, hpk, hle⟩
          · exact Or.inl h2
          · exact Or.inr ⟨pk, alookup_pqPush_of_some hpk, hle⟩
        · rw [List.mem_singleton.mp h]
          refine Or.inr ⟨⟨dt + nb.2, target⟩, ?_, Nat.le_refl _⟩
          rw [alookup_pqPush_of_none hlk]
          simp
    · rw [if_neg hts]
      refine ⟨inv.keys_nodup, inv.pq_range, inv.pq_unvisited, inv.pq_entry,
        inv.source_pq, inv.mono, ?_⟩
      intro nb2 hnb2
      rcases List.mem_append.mp hnb2 with h | h
      · exact inv.covered nb2 h
      · rw [List.mem_singleton.mp h]
        exact Or.inl (not_not.mp hts)

theorem relaxFold_preserve
    (hE : ∀ u, ∀ nb ∈ E u, nb.1 < n)
    (hEnd : ∀ u, ((E u).map Prod.fst).Nodup)
    {vs2 : List CompleteGraphVertex} {target dt : Nat} (prev : Nat)
    {pq0 : List (Nat × PriorityElement)}
    (htv : visitedAt vs2 active target)
    (hdt : IsShortest E s target dt) :
    ∀ (L : List (Nat × Nat)) (pq : List (Nat × PriorityElement))
      (processed : List (Nat × Nat)),
      RelaxInv E n s active vs2 target dt pq0 pq processed →
      (∀ nb ∈ L, nb ∈ E target) →
      RelaxInv E n s active vs2 target dt pq0
        (L.foldl (relaxOne vs2 active target dt prev) pq) (processed ++ L) := by
  intro L
  induction L with
  | nil =>
    intro pq processed hinv _
    simpa using hinv
  | cons nb rest ih =>
    intro pq processed hinv hL
    have h1 := relaxOne_preserve hE hEnd prev htv hdt hinv
      (hL nb (List.mem_cons_self _ _))
    have h2 := ih _ _ h1 (fun x hx => hL _ (List.mem_cons_of_mem _ hx))
    simpa using h2

/-! ### One loop iteration preserves the invariant -/

theorem countUnvisited_mark {vs : List CompleteGraphVertex} {target : Nat}
    (hlen : vs.length = n) (hlt : target < n)
    (hunv : ¬ visitedAt vs active target) :
    countUnvisited (markVisited vs target active) active n <
      countUnvisited vs active n := by
  have hlenvs : target < vs.length := Nat.lt_of_lt_of_eq hlt hlen.symm
  unfold countUnvisited
  apply Finset.card_lt_card
  have hsub : (Finset.range n).filter
      (fun v => ¬ visitedAt (markVisited vs target active) active v) ⊆
      (Finset.range n).filter (fun v => ¬ visitedAt vs active v) := by
    intro v hv
    rw [Finset.mem_filter] at hv ⊢
    refine ⟨hv.1, fun hvis => hv.2 ?_⟩
    exact (visitedAt_mark active hlenvs v).mpr (Or.inr hvis)
  rw [Finset.ssubset_iff_of_subset hsub]
  refine ⟨target, ?_, ?_⟩
  · rw [Finset.mem_filter]
    exact ⟨Finset.mem_range.mpr hlt, hunv⟩
  · intro hc
    exact (Finset.mem_filter.mp hc).2
      ((visitedAt_mark active hlenvs target).mpr (Or.inl rfl))

theorem relaxNeighbors_eq {vs : List CompleteGraphVertex}
    {active target weight previous : Nat} {pq : List (Nat × PriorityElement)}
    {L : List (Nat × Nat)} (h : edgesOf vs target = L) :
    relaxNeighbors vs active target weight previous pq =
      L.foldl (relaxOne vs active target weight previous) pq := by
  unfold relaxNeighbors
  rw [← h]
  rfl

theorem step_preserve
    (hE : ∀ u, ∀ nb ∈ E u, nb.1 < n)
    (hEnd : ∀ u, ((E u).map Prod.fst).Nodup)
    {vs : List CompleteGraphVertex} {pq pq2 : List (Nat × PriorityElement)}
    {ce : List (Nat × (Nat × Nat))} {target : Nat} {pe : PriorityElement}
    (inv : LoopInv E n s active vs pq ce)
    (hpop : popMin pq = some ((target, pe), pq2)) :
    target < n ∧ ¬ visitedAt vs active target ∧
    IsShortest E s target pe.weight ∧ alookup target ce = none ∧
    countUnvisited (markVisited vs target active) active n <
      countUnvisited vs active n ∧
    (∀ k x, alookup k ce = some x →
      alookup k (if target = s then ce
        else btreeInsert target (pe.previous, pe.weight) ce) = some x) ∧
    LoopInv E n s active (markVisited vs target active)
      (relaxNeighbors (markVisited vs target active) active target
        pe.weight pe.previous pq2)
      (if target = s then ce
        else btreeInsert target (pe.previous, pe.weight) ce) := by
  obtain ⟨hmem, hlkpq, hnd2, hsub2, hlkt2, hlkoth⟩ := popMin_facts inv.keys_nodup hpop
  have htlt : target < n := inv.pq_range _ hmem
  have htunv : ¬ visitedAt vs active target := inv.pq_unvisited _ hmem
  have hshort : IsShortest E s target pe.weight := inv.pop_shortest hpop
  have hce_t : alookup target ce = none := by
    cases hcl : alookup target ce with
    | none => rfl
    | some x =>
      obtain ⟨p, w⟩ := x
      exact absurd (inv.ce_entry target p w hcl).2.2.1 htunv
  have hlenvs : target < vs.length := Nat.lt_of_lt_of_eq htlt inv.len_eq.symm
  have hvis2 : ∀ v, visitedAt (markVisited vs target active) active v ↔
      (v = target ∨ visitedAt vs active v) :=
    fun v => visitedAt_mark active hlenvs v
  have hedg2 : ∀ u, edgesOf (markVisited vs target active) u = E u :=
    fun u => (edgesOf_mark vs target active u).trans (inv.edges_eq u)
  have htv2 : visitedAt (markVisited vs target active) active target :=
    (hvis2 target).mpr (Or.inl rfl)
  have hRinit : RelaxInv E n s active (markVisited vs target active) target
      pe.weight pq2 pq2 [] := by
    refine ⟨hnd2, fun x hx => inv.pq_range x (hsub2 x hx), ?_, ?_, ?_, ?_, by simp⟩
    · intro x hx
      rw [hvis2 x.1]
      rintro (h | h)
      · have hxm : x.1 ∈ pq2.map Prod.fst := List.mem_map_of_mem Prod.fst hx
        rw [h] at hxm
        exact (alookup_eq_none.mp hlkt2) hxm
      · exact inv.pq_unvisited x (hsub2 x hx) h
    · intro x hx
      rcases inv.pq_entry x (hsub2 x hx) with h | ⟨hv, w, hw, dp, hdp, hwt⟩
      · exact Or.inl h
      · exact Or.inr ⟨(hvis2 _).mpr (Or.inr hv), w, hw, dp, hdp, hwt⟩
    · intro hs2
      have hsne : s ≠ target := fun hc => hs2 (hc ▸ htv2)
      have hsv : ¬ visitedAt vs active s :=
        fun hc => hs2 ((hvis2 s).mpr (Or.inr hc))
      rw [hlkoth s hsne]
      exact inv.source_pq hsv
    · intro k pk0 hk0
      exact ⟨pk0, hk0, Nat.le_refl _⟩
  have hR := relaxFold_preserve hE hEnd pe.previous htv2 hshort (E target)
    pq2 [] hRinit (fun nb h => h)
  rw [← relaxNeighbors_eq (hedg2 target)] at hR
  refine ⟨htlt, htunv, hshort, hce_t,
    countUnvisited_mark inv.len_eq htlt htunv, ?_, ?_⟩
  · intro k x hx
    by_cases hts : target = s
    · rw [if_pos hts]
      exact hx
    · rw [if_neg hts]
      have hkt : k ≠ target := by
        intro hc
        rw [hc, hce_t] at hx
        cases hx
      rw [alookup_btreeInsert_ne _ _ hkt]
      exact hx
  · refine ⟨?_, inv.active_pos, hedg2, hR.keys_nodup, hR.pq_range,
      hR.pq_unvisited, hR.pq_entry, ?_, ?_, ?_, hR.source_pq, ?_⟩
    · unfold markVisited
      rw [List.length_set]
      exact inv.len_eq
    · -- ce_entry
      intro v p w hvp
      by_cases hts : target = s
      · rw [if_pos hts] at hvp
        obtain ⟨h1, h2, h3, h4, h5, h6⟩ := inv.ce_entry v p w hvp
        exact ⟨h1, h2, (hvis2 v).mpr (Or.inr h3), h4,
          (hvis2 p).mpr (Or.inr h5), h6⟩
      · rw [if_neg hts] at hvp
        by_cases hvt : v = target
        · subst hvt
          rw [alookup_btreeInsert_self] at hvp
          have h0 := Option.some.inj hvp
          have hpw : p = pe.previous ∧ w = pe.weight :=
            ⟨(congrArg Prod.fst h0).symm, (congrArg Prod.snd h0).symm⟩
          obtain ⟨rfl, rfl⟩ := hpw
          rcases inv.pq_entry (v, pe) hmem with ⟨h1, _⟩ | ⟨hvprev, w2, hw2, dp, hdp, hwt⟩
          · exact absurd h1 hts
          · exact ⟨hts, htlt, htv2, hshort, (hvis2 _).mpr (Or.inr hvprev),
              w2, hw2, dp, hdp, hwt.symm⟩
        · rw [alookup_btreeInsert_ne _ _ hvt] at hvp
          obtain ⟨h1, h2, h3, h4, h5, h6⟩ := inv.ce_entry v p w hvp
          exact ⟨h1, h2, (hvis2 v).mpr (Or.inr h3), h4,
            (hvis2 p).mpr (Or.inr h5), h6⟩
    · -- visited_done
      intro v hv
      rcases (hvis2 v).mp hv with rfl | hvv
      · by_cases hts : v = s
        · exact Or.inl hts
        · refine Or.inr ⟨(pe.previous, pe.weight), ?_⟩
          rw [if_neg hts]
          exact alookup_btreeInsert_self _ _ _
      · rcases inv.visited_done v hvv with h | ⟨x, hx⟩
        · exact Or.inl h
        · refine Or.inr ⟨x, ?_⟩
          by_cases hts : target = s
          · rw [if_pos hts]
            exact hx
          · rw [if_neg hts]
            have hvt : v ≠ target := fun hc => htunv (hc ▸ hvv)
            rw [alookup_btreeInsert_ne _ _ hvt]
            exact hx
    · -- frontier
      intro u hu du hdu nb hnb
      rcases (hvis2 u).mp hu with rfl | huv
      · have hdueq : du = pe.weight := isShortest_unique hdu hshort
        rcases hR.covered nb (by simpa using hnb) with h | ⟨pk, hpk, hle⟩
        · exact Or.inl h
        · refine Or.inr ⟨pk, hpk, ?_⟩
          rw [hdueq]
          exact hle
      · rcases inv.frontier u huv du hdu nb hnb with h | ⟨pe3, hpe3, hle3⟩
        · exact Or.inl ((hvis2 _).mpr (Or.inr h))
        · by_cases hnt : nb.1 = target
          · exact Or.inl ((hvis2 _).mpr (Or.inl hnt))
          · obtain ⟨pk, hpk, hlem⟩ :=
              hR.mono nb.1 pe3 ((hlkoth nb.1 hnt).trans hpe3)
            exact Or.inr ⟨pk, hpk, Nat.le_trans hlem hle3⟩
    · -- chainOK
      intro v x hvx
      by_cases hts : target = s
      · rw [if_pos hts] at hvx ⊢
        exact inv.chainOK v x hvx
      · rw [if_neg hts] at hvx ⊢
        have hlen2 : (btreeInsert target (pe.previous, pe.weight) ce).length =
            ce.length + 1 := length_btreeInsert_fresh _ hce_t
        have hsub : ∀ v2 x2, alookup v2 ce = some x2 →
            alookup v2 (btreeInsert target (pe.previous, pe.weight) ce) = some x2 := by
          intro v2 x2 h2
          have hne : v2 ≠ target := by
            intro hc
            rw [hc, hce_t] at h2
            cases h2
          rw [alookup_btreeInsert_ne _ _ hne]
          exact h2
        by_cases hvt : v = target
        · subst hvt
          rcases inv.pq_entry (v, pe) hmem with ⟨h1, _⟩ | ⟨hvprev, _⟩
          · exact absurd h1 hts
          · rcases inv.visited_done pe.previous hvprev with hps | ⟨⟨q, wq⟩, hq⟩
            · refine ⟨1, by omega, ?_⟩
              refine Chain.step (alookup_btreeInsert_self _ _ _) ?_
              rw [hps]
              exact Chain.base
            · obtain ⟨j, hj, hchain⟩ := inv.chainOK pe.previous (q, wq) hq
              exact ⟨j + 1, by omega,
                Chain.step (alookup_btreeInsert_self _ _ _) (chain_extend hsub hchain)⟩
        · rw [alookup_btreeInsert_ne _ _ hvt] at hvx
          obtain ⟨j, hj, hchain⟩ := inv.chainOK v x hvx
          exact ⟨j, by omega, chain_extend hsub hchain⟩

/-! ### The master run of the loop -/

theorem dijkstraLoop_none {vertex terminate active fuel : Nat}
    {vs : List CompleteGraphVertex} {pq : List (Nat × PriorityElement)}
    {ce : List (Nat × (Nat × Nat))} (h : popMin pq = none) :
    dijkstraLoop vertex terminate active fuel vs pq ce = some (vs, ce) := by
  rw [dijkstraLoop, h]

theorem dijkstraLoop_some_zero {vertex terminate active : Nat}
    {vs : List CompleteGraphVertex} {pq pq2 : List (Nat × PriorityElement)}
    {ce : List (Nat × (Nat × Nat))} {target : Nat} {pe : PriorityElement}
    (h : popMin pq = some ((target, pe), pq2)) :
    dijkstraLoop vertex terminate active 0 vs pq ce = none := by
  rw [dijkstraLoop, h]

theorem dijkstraLoop_some_succ {vertex terminate active fuel : Nat}
    {vs : List CompleteGraphVertex} {pq pq2 : List (Nat × PriorityElement)}
    {ce : List (Nat × (Nat × Nat))} {target : Nat} {pe : PriorityElement}
    (h : popMin pq = some ((target, pe), pq2)) :
    dijkstraLoop vertex terminate active (fuel + 1) vs pq ce =
      if target ≠ vertex then
        (if target = terminate then
          some (markVisited vs target active,
            btreeInsert target (pe.previous, pe.weight) ce)
         else
          dijkstraLoop vertex terminate active fuel (markVisited vs target active)
            (relaxNeighbors (markVisited vs target active) active target
              pe.weight pe.previous pq2)
            (btreeInsert target (pe.previous, pe.weight) ce))
      else
        dijkstraLoop vertex terminate active fuel (markVisited vs target active)
          (relaxNeighbors (markVisited vs target active) active target
            pe.weight pe.previous pq2) ce := by
  rw [dijkstraLoop, h]

theorem empty_pq_complete {vs : List CompleteGraphVertex}
    {ce : List (Nat × (Nat × Nat))} (inv : LoopInv E n s active vs [] ce) :
    ∀ v d, HasDist E s v d → visitedAt vs active v := by
  intro v d h
  induction h with
  | base =>
    by_contra hs2
    have h2 := inv.source_pq hs2
    simp [alookup] at h2
  | @step u d2 v2 w hu hw ih =>
    by_contra hv2
    obtain ⟨du, hdu⟩ := inv.visited_shortest ih
    rcases inv.frontier u ih du hdu (v2, w) (alookup_mem hw) with h2 | ⟨pe, hpe, _⟩
    · exact hv2 h2
    · simp [alookup] at hpe

theorem count_zero_visited {vs : List CompleteGraphVertex}
    (hc : countUnvisited vs active n = 0) {v : Nat} (hv : v < n) :
    visitedAt vs active v := by
  by_contra hnv
  unfold countUnvisited at hc
  have hmem : v ∈ (Finset.range n).filter (fun v2 => ¬ visitedAt vs active v2) :=
    Finset.mem_filter.mpr ⟨Finset.mem_range.mpr hv, hnv⟩
  rw [Finset.card_eq_zero.mp hc] at hmem
  simp at hmem

/-- Facts about a finished run of the traversal loop, relating the final
state `(vs1, ce1)` to the starting state `(vs, ce)`: the result map consists
exactly of the settled non-source vertices, with true shortest distances,
shortest-path predecessors and acyclic predecessor chains; entries only
accrue; timestamps only get stamped; and the run either recorded the
`terminate` vertex or exhausted the frontier, settling every reachable
vertex. -/
structure LoopOut (E : Nat → List (Nat × Nat)) (n s active terminate : Nat)
    (vs : List CompleteGraphVertex) (ce : List (Nat × (Nat × Nat)))
    (vs1 : List CompleteGraphVertex) (ce1 : List (Nat × (Nat × Nat))) :
    Prop where
  len_eq : vs1.length = n
  edges_eq : ∀ u, edgesOf vs1 u = E u
  ce_entry : ∀ v p w, alookup v ce1 = some (p, w) → v ≠ s ∧ v < n ∧
      visitedAt vs1 active v ∧ IsShortest E s v w ∧ visitedAt vs1 active p ∧
      ∃ wpv, alookup v (E p) = some wpv ∧
        ∃ dp, IsShortest E s p dp ∧ dp + wpv = w
  visited_done : ∀ v, visitedAt vs1 active v →
      v = s ∨ ∃ x, alookup v ce1 = some x
  chainOK : ∀ v x, alookup v ce1 = some x →
      ∃ j, j ≤ ce1.length ∧ Chain ce1 s v j
  grow : ∀ k x, alookup k ce = some x → alookup k ce1 = some x
  ts_or : ∀ v, tsOf vs1 v = tsOf vs v ∨ tsOf vs1 v = active
  ends : (∃ x, alookup terminate ce1 = some x) ∨
      (∀ v d, HasDist E s v d → visitedAt vs1 active v)

theorem loopOut_of_empty {terminate : Nat} {vs : List CompleteGraphVertex}
    {ce : List (Nat × (Nat × Nat))} (inv : LoopInv E n s active vs [] ce) :
    LoopOut E n s active terminate vs ce vs ce := by
  refine ⟨inv.len_eq, inv.edges_eq, inv.ce_entry, inv.visited_done, inv.chainOK,
    fun k x hx => hx, fun v => Or.inl rfl, Or.inr ?_⟩
  intro v d hd
  exact empty_pq_complete inv v d hd

theorem loopOut_step {terminate target : Nat} {vs vs1 : List CompleteGraphVertex}
    {ce ce2 ce1 : List (Nat × (Nat × Nat))}
    (hlenvs : target < vs.length)
    (hout : LoopOut E n s active terminate (markVisited vs target active) ce2 vs1 ce1)
    (hgrow : ∀ k x, alookup k ce = some x → alookup k ce2 = some x) :
    LoopOut E n s active terminate vs ce vs1 ce1 := by
  refine ⟨hout.len_eq, hout.edges_eq, hout.ce_entry, hout.visited_done,
    hout.chainOK, fun k x hx => hout.grow k x (hgrow k x hx), ?_, hout.ends⟩
  intro v
  rcases hout.ts_or v with h | h
  · by_cases hvt : v = target
    · subst hvt
      rw [tsOf_mark_self active hlenvs] at h
      exact Or.inr h
    · rw [tsOf_mark_ne vs target active hvt] at h
      exact Or.inl h
  · exact Or.inr h

theorem dijkstraLoop_master
    (hE : ∀ u, ∀ nb ∈ E u, nb.1 < n)
    (hEnd : ∀ u, ((E u).map Prod.fst).Nodup) (terminate : Nat) :
    ∀ (fuel : Nat) (vs : List CompleteGraphVertex)
      (pq : List (Nat × PriorityElement)) (ce : List (Nat × (Nat × Nat))),
      LoopInv E n s active vs pq ce →
      countUnvisited vs active n ≤ fuel →
      ∃ vs1 ce1,
        dijkstraLoop s terminate active fuel vs pq ce = some (vs1, ce1) ∧
        LoopOut E n s active terminate vs ce vs1 ce1 := by
  intro fuel
  induction fuel with
  | zero =>
    intro vs pq ce inv hcount
    cases hpop : popMin pq with
    | none =>
      have hpq : pq = [] := popMin_eq_none.mp hpop
      subst hpq
      exact ⟨vs, ce, dijkstraLoop_none hpop, loopOut_of_empty inv⟩
    | some p =>
      obtain ⟨⟨target, pe⟩, pq2⟩ := p
      have h1 := (popMin_facts inv.keys_nodup hpop).1
      have h2 := count_zero_visited (Nat.le_zero.mp hcount) (inv.pq_range _ h1)
      exact absurd h2 (inv.pq_unvisited _ h1)
  | succ fuel ih =>
    intro vs pq ce inv hcount
    cases hpop : popMin pq with
    | none =>
      have hpq : pq = [] := popMin_eq_none.mp hpop
      subst hpq
      exact ⟨vs, ce, dijkstraLoop_none hpop, loopOut_of_empty inv⟩
    | some p =>
      obtain ⟨⟨target, pe⟩, pq2⟩ := p
      obtain ⟨htlt, htunv, hshort, hce_t, hdec, hgrow1, inv2⟩ :=
        step_preserve hE hEnd inv hpop
      have hlenvs : target < vs.length := Nat.lt_of_lt_of_eq htlt inv.len_eq.symm
      rw [dijkstraLoop_some_succ hpop]
      by_cases hts : target = s
      · rw [if_neg (not_not_intro hts)]
        rw [if_pos hts] at inv2
        have hc2 : countUnvisited (markVisited vs target active) active n ≤ fuel := by
          omega
        obtain ⟨vs1, ce1, heq, hout⟩ := ih _ _ _ inv2 hc2
        exact ⟨vs1, ce1, heq, loopOut_step hlenvs hout (fun k x hx => hx)⟩
      · rw [if_pos hts]
        rw [if_neg hts] at inv2 hgrow1
        by_cases htt : target = terminate
        · rw [if_pos htt]
          refine ⟨markVisited vs target active,
            btreeInsert target (pe.previous, pe.weight) ce, rfl, ?_⟩
          refine ⟨inv2.len_eq, inv2.edges_eq, inv2.ce_entry, inv2.visited_done,
            inv2.chainOK, hgrow1, ?_, ?_⟩
          · intro v
            by_cases hvt : v = target
            · subst hvt
              rw [tsOf_mark_self active hlenvs]
              exact Or.inr rfl
            · rw [tsOf_mark_ne vs target active hvt]
              exact Or.inl rfl
          · refine Or.inl ⟨(pe.previous, pe.weight), ?_⟩
            rw [← htt]
            exact alookup_btreeInsert_self _ _ _
        · rw [if_neg htt]
          have hc2 : countUnvisited (markVisited vs target active) active n ≤ fuel := by
            omega
          obtain ⟨vs1, ce1, heq, hout⟩ := ih _ _ _ inv2 hc2
          exact ⟨vs1, ce1, heq, loopOut_step hlenvs hout hgrow1⟩

end LoopInvariant

/-! ## Construction and invalidation facts -/

theorem list_getD_oob {α : Type} {l : List α} {i : Nat} (d : α)
    (h : l.length ≤ i) : l.getD i d = d := by
  induction l generalizing i with
  | nil => cases i <;> rfl
  | cons a rest ih =>
    cases i with
    | zero => simp at h
    | succ m => exact ih (Nat.le_of_succ_le_succ h)

theorem tsOf_oob {vs : List CompleteGraphVertex} {v : Nat}
    (h : vs.length ≤ v) : tsOf vs v = 0 := by
  unfold tsOf
  rw [list_getD_oob _ h]
  rfl

theorem edgesOf_oob {vs : List CompleteGraphVertex} {v : Nat}
    (h : vs.length ≤ v) : edgesOf vs v = [] := by
  unfold edgesOf
  rw [list_getD_oob _ h]
  rfl

/-- Keys of a `BTreeMap` association list are strictly sorted. -/
def keysSorted {α : Type} (l : List (Nat × α)) : Prop :=
  List.Pairwise (· < ·) (l.map Prod.fst)

theorem btreeInsert_keys_mem {α : Type} {k x : Nat} {v : α} {l : List (Nat × α)}
    (h : x ∈ (btreeInsert k v l).map Prod.fst) :
    x = k ∨ x ∈ l.map Prod.fst := by
  induction l with
  | nil => simpa [btreeInsert] using h
  | cons e rest ih =>
    by_cases h1 : k < e.1
    · simp only [btreeInsert, if_pos h1, List.map_cons, List.mem_cons] at h
      rcases h with h | h | h
      · exact Or.inl h
      · exact Or.inr (by simp [h])
      · exact Or.inr (by simp [h])
    · by_cases h2 : k = e.1
      · simp only [btreeInsert, if_neg h1, if_pos h2, List.map_cons,
          List.mem_cons] at h
        rcases h with h | h
        · exact Or.inl h
        · exact Or.inr (by simp [h])
      · simp only [btreeInsert, if_neg h1, if_neg h2, List.map_cons,
          List.mem_cons] at h
        rcases h with h | h
        · exact Or.inr (by simp [h])
        · rcases ih h with h3 | h3
          · exact Or.inl h3
          · exact Or.inr (by simp [h3])

theorem btreeInsert_sorted {α : Type} {k : Nat} {v : α} {l : List (Nat × α)}
    (h : keysSorted l) : keysSorted (btreeInsert k v l) := by
  induction l with
  | nil => simp [btreeInsert, keysSorted]
  | cons e rest ih =>
    unfold keysSorted at h
    rw [List.map_cons, List.pairwise_cons] at h
    obtain ⟨hlt, hrest⟩ := h
    by_cases h1 : k < e.1
    · unfold keysSorted
      simp only [btreeInsert, if_pos h1, List.map_cons, List.pairwise_cons]
      refine ⟨?_, hlt, hrest⟩
      intro y hy
      rcases List.mem_cons.mp hy with rfl | hy2
      · exact h1
      · exact Nat.lt_trans h1 (hlt y hy2)
    · by_cases h2 : k = e.1
      · unfold keysSorted
        simp only [btreeInsert, if_neg h1, if_pos h2, List.map_cons,
          List.pairwise_cons]
        exact ⟨fun y hy => h2 ▸ hlt y hy, hrest⟩
      · unfold keysSorted
        simp only [btreeInsert, if_neg h1, if_neg h2, List.map_cons,
          List.pairwise_cons]
        refine ⟨?_, ih hrest⟩
        intro y hy
        rcases btreeInsert_keys_mem hy with rfl | hy2
        · omega
        · exact hlt y hy2

theorem keysSorted_nodup {α : Type} {l : List (Nat × α)} (h : keysSorted l) :
    (l.map Prod.fst).Nodup :=
  h.imp Nat.ne_of_lt

/-! ### Edge-insertion during construction -/

theorem edgesOf_setEdges_self {vs : List CompleteGraphVertex} {i : Nat}
    (L : List (Nat × Nat)) (h : i < vs.length) :
    edgesOf (vs.set i { vs.getD i dfltVertex with edges := L }) i = L := by
  unfold edgesOf
  rw [list_getD_set_self _ _ h]

theorem edgesOf_setEdges_ne {vs : List CompleteGraphVertex} {i u : Nat}
    (L : List (Nat × Nat)) (h : u ≠ i) :
    edgesOf (vs.set i { vs.getD i dfltVertex with edges := L }) u =
      edgesOf vs u := by
  unfold edgesOf
  rw [list_getD_set_ne _ _ h]

theorem tsOf_setEdges {vs : List CompleteGraphVertex} {i : Nat}
    (L : List (Nat × Nat)) (u : Nat) :
    tsOf (vs.set i { vs.getD i dfltVertex with edges := L }) u = tsOf vs u := by
  by_cases hl : i < vs.length
  · by_cases hu : u = i
    · subst hu
      unfold tsOf
      rw [list_getD_set_self _ _ hl]
    · unfold tsOf
      rw [list_getD_set_ne _ _ hu]
  · rw [list_set_of_le _ (Nat.le_of_not_lt hl)]

theorem markVisited_oob {vs : List CompleteGraphVertex} {i a : Nat}
    (h : vs.length ≤ i) : markVisited vs i a = vs := by
  unfold markVisited
  exact list_set_of_le _ h

theorem markVisited_length (vs : List CompleteGraphVertex) (i a : Nat) :
    (markVisited vs i a).length = vs.length := by
  unfold markVisited
  exact List.length_set vs i _

theorem getD_all_eq {α : Type} {l : List α} {c : α} (h : ∀ x ∈ l, x = c)
    {i : Nat} (d : α) (hi : i < l.length) : l.getD i d = c := by
  induction l generalizing i with
  | nil => simp at hi
  | cons a rest ih =>
    cases i with
    | zero => exact h a (List.mem_cons_self _ _)
    | succ m =>
      exact ih (fun x hx => h x (List.mem_cons_of_mem _ hx))
        (Nat.lt_of_succ_lt_succ hi)

/-! ### Facts about `CompleteGraph.new` -/

theorem btreeInsert_range {n k w : Nat} {L : List (Nat × Nat)}
    (hL : ∀ nb ∈ L, nb.1 < n) (hk : k < n) :
    ∀ nb ∈ btreeInsert k w L, nb.1 < n := by
  intro nb hnb
  have hkey := List.mem_map_of_mem Prod.fst hnb
  rcases btreeInsert_keys_mem hkey with h | h
  · rw [h]
    exact hk
  · obtain ⟨nb2, hnb2, hfst⟩ := List.mem_map.mp h
    rw [← hfst]
    exact hL nb2 hnb2

theorem newFold_facts {n : Nat} :
    ∀ (we : List (Nat × Nat × Nat)) (vs : List CompleteGraphVertex),
      (∀ e ∈ we, e.1 < n ∧ e.2.1 < n) →
      vs.length = n →
      (∀ v, tsOf vs v = 0) →
      (∀ u, keysSorted (edgesOf vs u)) →
      (∀ u, ∀ nb ∈ edgesOf vs u, nb.1 < n) →
      ∀ vsf, vsf = we.foldl
        (fun vs e =>
          let vs := vs.set e.1
            { vs.getD e.1 dfltVertex with
                edges := btreeInsert e.2.1 e.2.2 (vs.getD e.1 dfltVertex).edges }
          vs.set e.2.1
            { vs.getD e.2.1 dfltVertex with
                edges := btreeInsert e.1 e.2.2 (vs.getD e.2.1 dfltVertex).edges })
        vs →
      vsf.length = n ∧ (∀ v, tsOf vsf v = 0) ∧
      (∀ u, keysSorted (edgesOf vsf u)) ∧
      (∀ u, ∀ nb ∈ edgesOf vsf u, nb.1 < n) := by
  intro we
  induction we with
  | nil =>
    intro vs _ hlen hts hsort hrange vsf hf
    rw [List.foldl_nil] at hf
    subst hf
    exact ⟨hlen, hts, hsort, hrange⟩
  | cons e rest ih =>
    intro vs hwe hlen hts hsort hrange vsf hf
    rw [List.foldl_cons] at hf
    have he := hwe e (List.mem_cons_self _ _)
    have hlt1 : e.1 < vs.length := by
      rw [hlen]
      exact he.1
    have hlen1 : (vs.set e.1
        { vs.getD e.1 dfltVertex with
            edges := btreeInsert e.2.1 e.2.2 (vs.getD e.1 dfltVertex).edges }).length
        = n := by
      rw [List.length_set]
      exact hlen
    have hedge1 : edgesOf (vs.set e.1
        { vs.getD e.1 dfltVertex with
            edges := btreeInsert e.2.1 e.2.2 (vs.getD e.1 dfltVertex).edges }) e.1
        = btreeInsert e.2.1 e.2.2 (edgesOf vs e.1) :=
      edgesOf_setEdges_self _ hlt1
    have hedge1ne : ∀ u, u ≠ e.1 → edgesOf (vs.set e.1
        { vs.getD e.1 dfltVertex with
            edges := btreeInsert e.2.1 e.2.2 (vs.getD e.1 dfltVertex).edges }) u
        = edgesOf vs u :=
      fun u hu => edgesOf_setEdges_ne _ hu
    have hsort1 : ∀ u, keysSorted (edgesOf (vs.set e.1
        { vs.getD e.1 dfltVertex with
            edges := btreeInsert e.2.1 e.2.2 (vs.getD e.1 dfltVertex).edges }) u) := by
      intro u
      by_cases h1 : u = e.1
      · rw [h1, hedge1]
        exact btreeInsert_sorted (hsort e.1)
      · rw [hedge1ne u h1]
        exact hsort u
    have hrange1 : ∀ u, ∀ nb ∈ edgesOf (vs.set e.1
        { vs.getD e.1 dfltVertex with
            edges := btreeInsert e.2.1 e.2.2 (vs.getD e.1 dfltVertex).edges }) u,
        nb.1 < n := by
      intro u nb hnb
      by_cases h1 : u = e.1
      · rw [h1, hedge1] at hnb
        exact btreeInsert_range (hrange e.1) he.2 nb hnb
      · rw [hedge1ne u h1] at hnb
        exact hrange u nb hnb
    have hts1 : ∀ v, tsOf (vs.set e.1
        { vs.getD e.1 dfltVertex with
            edges := btreeInsert e.2.1 e.2.2 (vs.getD e.1 dfltVertex).edges }) v
        = 0 := by
      intro v
      rw [tsOf_setEdges]
      exact hts v
    refine ih _ (fun x hx => hwe x (List.mem_cons_of_mem _ hx)) ?_ ?_ ?_ ?_ vsf hf
    · rw [List.length_set]
      exact hlen1
    · intro v
      rw [tsOf_setEdges]
      exact hts1 v
    · intro u
      by_cases h2 : u = e.2.1
      · rw [h2, edgesOf_setEdges_self _ (by rw [hlen1]; exact he.2)]
        exact btreeInsert_sorted (hsort1 e.2.1)
      · rw [edgesOf_setEdges_ne _ h2]
        exact hsort1 u
    · intro u nb hnb
      by_cases h2 : u = e.2.1
      · rw [h2, edgesOf_setEdges_self _ (by rw [hlen1]; exact he.2)] at hnb
        exact btreeInsert_range (hrange1 e.2.1) he.1 nb hnb
      · rw [edgesOf_setEdges_ne _ h2] at hnb
        exact hrange1 u nb hnb

theorem new_facts {n : Nat} {we : List (Nat × Nat × Nat)}
    (hrange : ∀ e ∈ we, e.1 < n ∧ e.2.1 < n) :
    (CompleteGraph.new n we).vertex_num = n ∧
    (CompleteGraph.new n we).active_timestamp = 0 ∧
    (CompleteGraph.new n we).vertices.length = n ∧
    (∀ v, tsOf (CompleteGraph.new n we).vertices v = 0) ∧
    (∀ u, keysSorted (edgesOf (CompleteGraph.new n we).vertices u)) ∧
    (∀ u, ∀ nb ∈ edgesOf (CompleteGraph.new n we).vertices u, nb.1 < n) := by
  have hinit_len : ((List.range n).map
      (fun _ => ({ edges := [], timestamp := 0 } : CompleteGraphVertex))).length = n := by
    simp
  have hinit_all : ∀ x ∈ (List.range n).map
      (fun _ => ({ edges := [], timestamp := 0 } : CompleteGraphVertex)),
      x = ({ edges := [], timestamp := 0 } : CompleteGraphVertex) := by
    intro x hx
    obtain ⟨y, _, hy⟩ := List.mem_map.mp hx
    exact hy.symm
  have hinit_ts : ∀ v, tsOf ((List.range n).map
      (fun _ => ({ edges := [], timestamp := 0 } : CompleteGraphVertex))) v = 0 := by
    intro v
    by_cases hv : v < n
    · unfold tsOf
      rw [getD_all_eq hinit_all dfltVertex (by rw [hinit_len]; exact hv)]
    · exact tsOf_oob (by rw [hinit_len]; exact Nat.le_of_not_lt hv)
  have hinit_edges : ∀ u, edgesOf ((List.range n).map
      (fun _ => ({ edges := [], timestamp := 0 } : CompleteGraphVertex))) u = [] := by
    intro u
    by_cases hv : u < n
    · unfold edgesOf
      rw [getD_all_eq hinit_all dfltVertex (by rw [hinit_len]; exact hv)]
    · exact edgesOf_oob (by rw [hinit_len]; exact Nat.le_of_not_lt hv)
  obtain ⟨h1, h2, h3, h4⟩ := newFold_facts we _ hrange hinit_len hinit_ts
    (fun u => by rw [hinit_edges u]; exact List.Pairwise.nil)
    (fun u nb hnb => by rw [hinit_edges u] at hnb; cases hnb)
    (CompleteGraph.new n we).vertices rfl
  exact ⟨rfl, rfl, h1, h2, h3, h4⟩

/-! ### Facts about `invalidate_previous_dijkstra` -/

theorem resetFold_facts :
    ∀ (ks : List Nat) (vs : List CompleteGraphVertex),
      ((ks.foldl (fun vs i => markVisited vs i 0) vs).length = vs.length) ∧
      (∀ u, edgesOf (ks.foldl (fun vs i => markVisited vs i 0) vs) u
        = edgesOf vs u) ∧
      (∀ v, tsOf (ks.foldl (fun vs i => markVisited vs i 0) vs) v = 0 ∨
            tsOf (ks.foldl (fun vs i => markVisited vs i 0) vs) v = tsOf vs v) ∧
      (∀ v ∈ ks, tsOf (ks.foldl (fun vs i => markVisited vs i 0) vs) v = 0 ∨
            vs.length ≤ v) := by
  intro ks
  induction ks with
  | nil =>
    intro vs
    exact ⟨rfl, fun u => rfl, fun v => Or.inr rfl, fun v hv => absurd hv (by simp)⟩
  | cons i rest ih =>
    intro vs
    rw [List.foldl_cons]
    obtain ⟨ihlen, ihedges, ihts, ihmem⟩ := ih (markVisited vs i 0)
    have hlen1 : (markVisited vs i 0).length = vs.length := markVisited_length vs i 0
    refine ⟨ihlen.trans hlen1, fun u => (ihedges u).trans (edgesOf_mark vs i 0 u),
      ?_, ?_⟩
    · intro v
      rcases ihts v with h | h
      · exact Or.inl h
      · by_cases hvi : v = i
        · subst hvi
          by_cases hvl : v < vs.length
          · rw [tsOf_mark_self 0 hvl] at h
            exact Or.inl h
          · rw [markVisited_oob (Nat.le_of_not_lt hvl)] at h ⊢
            exact Or.inr h
        · rw [tsOf_mark_ne vs i 0 hvi] at h
          exact Or.inr h
    · intro v hv
      rcases List.mem_cons.mp hv with rfl | hv2
      · by_cases hvl : v < vs.length
        · rcases ihts v with h | h
          · exact Or.inl h
          · rw [tsOf_mark_self 0 hvl] at h
            exact Or.inl h
        · exact Or.inr (Nat.le_of_not_lt hvl)
      · rcases ihmem v hv2 with h | h
        · exact Or.inl h
        · exact Or.inr (hlen1 ▸ h)

theorem invalidate_fresh {g : CompleteGraph}
    (hlen : g.vertices.length = g.vertex_num) (hts : TsOK g) :
    (g.invalidate_previous_dijkstra).1 =
      (g.invalidate_previous_dijkstra).2.active_timestamp ∧
    (g.invalidate_previous_dijkstra).2.vertex_num = g.vertex_num ∧
    (g.invalidate_previous_dijkstra).2.vertices.length = g.vertices.length ∧
    (∀ u, edgesOf (g.invalidate_previous_dijkstra).2.vertices u
      = edgesOf g.vertices u) ∧
    0 < (g.invalidate_previous_dijkstra).1 ∧
    (∀ v, tsOf (g.invalidate_previous_dijkstra).2.vertices v <
      (g.invalidate_previous_dijkstra).1) := by
  unfold CompleteGraph.invalidate_previous_dijkstra
  by_cases hw : g.active_timestamp = usizeMAX
  · rw [if_pos hw]
    obtain ⟨hrlen, hredges, hrts, hrmem⟩ :=
      resetFold_facts (List.range g.vertex_num) g.vertices
    refine ⟨rfl, rfl, hrlen, hredges, Nat.zero_lt_one, ?_⟩
    intro v
    have hts0 : tsOf ((List.range g.vertex_num).foldl
        (fun vs i => markVisited vs i 0) g.vertices) v = 0 := by
      by_cases hv : v < g.vertex_num
      · rcases hrmem v (List.mem_range.mpr hv) with h | h
        · exact h
        · rw [hlen] at h
          omega
      · rcases hrts v with h | h
        · exact h
        · rw [h]
          exact tsOf_oob (by rw [hlen]; exact Nat.le_of_not_lt hv)
    show tsOf ((List.range g.vertex_num).foldl
        (fun vs i => markVisited vs i 0) g.vertices) v < 1
    rw [hts0]
    exact Nat.zero_lt_one
  · rw [if_neg hw]
    refine ⟨rfl, rfl, rfl, fun u => rfl, Nat.succ_pos _, ?_⟩
    intro v
    exact Nat.lt_succ_of_le (hts v)

/-! ## Top-level traversal specification -/

/-- What one engine call `all_edges_with_terminate(s, terminate)` guarantees
about its result map `m`, stated over the engine's stored adjacency `E`:
every entry is a non-source vertex holding its true shortest distance and a
predecessor on some shortest path (itself settled in `m` unless it is the
source); the run either recorded `terminate` or settled every vertex
reachable from `s`; and predecessor chains are finite and lead to `s`. -/
structure TraversalSpec (E : Nat → List (Nat × Nat)) (n s terminate : Nat)
    (m : List (Nat × (Nat × Nat))) : Prop where
  entry : ∀ v p w, alookup v m = some (p, w) → v ≠ s ∧ v < n ∧
      IsShortest E s v w ∧
      (∃ wpv, alookup v (E p) = some wpv ∧
        ∃ dp, IsShortest E s p dp ∧ dp + wpv = w) ∧
      (p = s ∨ ∃ q wp, alookup p m = some (q, wp) ∧ IsShortest E s p wp)
  complete : (∃ x, alookup terminate m = some x) ∨
      (∀ v d, HasDist E s v d → v = s ∨ ∃ x, alookup v m = some x)
  chain_bound : ∀ v x, alookup v m = some x → ∃ j, j ≤ m.length ∧ Chain m s v j

theorem all_edges_with_terminate_run {g : CompleteGraph} (hwf : EngineWF g)
    (hts : TsOK g) (s terminate : Nat) (hs : s < g.vertex_num) :
    ∃ g1 m, g.all_edges_with_terminate s terminate = some (g1, m) ∧
      g1.vertex_num = g.vertex_num ∧
      g1.vertices.length = g.vertex_num ∧
      (∀ u, edgesOf g1.vertices u = edgesOf g.vertices u) ∧
      EngineWF g1 ∧ TsOK g1 ∧
      (∀ v, tsOf g1.vertices v = tsOf (g.invalidate_previous_dijkstra).2.vertices v ∨
        tsOf g1.vertices v = (g.invalidate_previous_dijkstra).1) ∧
      TraversalSpec (fun u => edgesOf g.vertices u) g.vertex_num s terminate m := by
  obtain ⟨hact, hnum, hlen2, hedges2, hpos, hfresh⟩ :=
    invalidate_fresh hwf.len_eq hts
  set r := g.invalidate_previous_dijkstra with hr
  have hE : ∀ u, ∀ nb ∈ edgesOf g.vertices u, nb.1 < g.vertex_num :=
    hwf.edge_range
  have hEnd : ∀ u, ((edgesOf g.vertices u).map Prod.fst).Nodup :=
    hwf.edge_nodup
  have hunv : ∀ v, ¬ visitedAt r.2.vertices r.1 v := by
    intro v hc
    unfold visitedAt at hc
    have h2 := hfresh v
    omega
  have hinv : LoopInv (fun u => edgesOf g.vertices u) g.vertex_num s r.1
      r.2.vertices (pqPush s ⟨0, s⟩ []) [] := by
    refine ⟨hlen2.trans hwf.len_eq, hpos, hedges2, by simp [pqPush], ?_, ?_, ?_,
      ?_, ?_, ?_, ?_, ?_⟩
    · intro x hx
      simp only [pqPush, List.nil_append, List.mem_singleton] at hx
      rw [hx]
      exact hs
    · intro x hx
      exact hunv x.1
    · intro x hx
      simp only [pqPush, List.nil_append, List.mem_singleton] at hx
      rw [hx]
      exact Or.inl ⟨rfl, rfl⟩
    · intro v p w h
      simp [alookup] at h
    · intro v hv
      exact absurd hv (hunv v)
    · intro u hu
      exact absurd hu (hunv u)
    · intro _
      simp [pqPush, alookup]
    · intro v x h
      simp [alookup] at h
  have hcount : countUnvisited r.2.vertices r.1 g.vertex_num ≤ dijkstraFuel r.2 := by
    unfold countUnvisited dijkstraFuel
    have h1 : ((Finset.range g.vertex_num).filter
        (fun v => ¬ visitedAt r.2.vertices r.1 v)).card ≤
        (Finset.range g.vertex_num).card := Finset.card_filter_le _ _
    rw [Finset.card_range] at h1
    rw [hnum]
    omega
  obtain ⟨vs1, ce1, heq, hout⟩ := dijkstraLoop_master hE hEnd terminate
    (dijkstraFuel r.2) r.2.vertices (pqPush s ⟨0, s⟩ []) [] hinv hcount
  have hrun : g.all_edges_with_terminate s terminate =
      some ({ r.2 with vertices := vs1 }, ce1) := by
    have h0 : g.all_edges_with_terminate s terminate =
        (match dijkstraLoop s terminate r.1 (dijkstraFuel r.2) r.2.vertices
            (pqPush s ⟨0, s⟩ []) [] with
          | none => none
          | some (vs, computed_edges) =>
            some ({ r.2 with vertices := vs }, computed_edges)) := rfl
    rw [h0, heq]
  refine ⟨{ r.2 with vertices := vs1 }, ce1, hrun, hnum, hout.len_eq, ?_, ?_, ?_,
    hout.ts_or, ?_⟩
  · intro u
    exact hout.edges_eq u
  · refine ⟨?_, ?_, ?_, ?_⟩
    · show vs1.length = r.2.vertex_num
      rw [hnum]
      exact hout.len_eq
    · show r.2.vertex_num ≤ usizeMAX
      rw [hnum]
      exact hwf.num_le
    · intro u nb hnb
      show nb.1 < r.2.vertex_num
      rw [hnum]
      have h2 := hout.edges_eq u
      rw [show edgesOf ({ r.2 with vertices := vs1 } : CompleteGraph).vertices u
        = edgesOf vs1 u from rfl, h2] at hnb
      exact hE u nb hnb
    · intro u
      have h2 := hout.edges_eq u
      rw [show edgesOf ({ r.2 with vertices := vs1 } : CompleteGraph).vertices u
        = edgesOf vs1 u from rfl, h2]
      exact hwf.edge_nodup u
  · intro v
    show tsOf vs1 v ≤ r.2.active_timestamp
    rw [← hact]
    rcases hout.ts_or v with h | h
    · rw [h]
      exact Nat.le_of_lt (hfresh v)
    · rw [h]
  · refine ⟨?_, ?_, hout.chainOK⟩
    · intro v p w hvw
      obtain ⟨h1, h2, h3, h4, h5, h6⟩ := hout.ce_entry v p w hvw
      refine ⟨h1, h2, h4, h6, ?_⟩
      rcases hout.visited_done p h5 with h | ⟨⟨q, wp⟩, hq⟩
      · exact Or.inl h
      · exact Or.inr ⟨q, wp, hq, (hout.ce_entry p q wp hq).2.2.2.1⟩
    · rcases hout.ends with h | h
      · exact Or.inl h
      · refine Or.inr ?_
        intro v d hd
        exact hout.visited_done v (h v d hd)

theorem new_engineWF {n : Nat} {we : List (Nat × Nat × Nat)}
    (hrange : ∀ e ∈ we, e.1 < n ∧ e.2.1 < n) (hn : n ≤ usizeMAX) :
    EngineWF (CompleteGraph.new n we) ∧ TsOK (CompleteGraph.new n we) := by
  obtain ⟨h1, h2, h3, h4, h5, h6⟩ := new_facts hrange
  refine ⟨⟨?_, ?_, ?_, ?_⟩, ?_⟩
  · rw [h1]
    exact h3
  · rw [h1]
    exact hn
  · intro u nb hnb
    rw [h1]
    exact h6 u nb hnb
  · intro u
    exact keysSorted_nodup (h5 u)
  · intro v
    rw [h2, h4 v]

/-! ## Claim C10: the source never appears in the result map -/

theorem dijkstraLoop_no_source (vertex terminate active : Nat) :
    ∀ (fuel : Nat) (vs : List CompleteGraphVertex)
      (pq : List (Nat × PriorityElement)) (ce : List (Nat × (Nat × Nat))),
      alookup vertex ce = none →
      ∀ vs1 ce1,
        dijkstraLoop vertex terminate active fuel vs pq ce = some (vs1, ce1) →
        alookup vertex ce1 = none := by
  intro fuel
  induction fuel with
  | zero =>
    intro vs pq ce hnone vs1 ce1 heq
    cases hpop : popMin pq with
    | none =>
      rw [dijkstraLoop_none hpop] at heq
      cases heq
      exact hnone
    | some p =>
      obtain ⟨⟨target, pe⟩, pq2⟩ := p
      rw [dijkstraLoop_some_zero hpop] at heq
      cases heq
  | succ fuel ih =>
    intro vs pq ce hnone vs1 ce1 heq
    cases hpop : popMin pq with
    | none =>
      rw [dijkstraLoop_none hpop] at heq
      cases heq
      exact hnone
    | some p =>
      obtain ⟨⟨target, pe⟩, pq2⟩ := p
      rw [dijkstraLoop_some_succ hpop] at heq
      by_cases hts : target = vertex
      · rw [if_neg (not_not_intro hts)] at heq
        exact ih _ _ _ hnone _ _ heq
      · rw [if_pos hts] at heq
        have hnone2 : alookup vertex
            (btreeInsert target (pe.previous, pe.weight) ce) = none := by
          rw [alookup_btreeInsert_ne _ _ (Ne.symm hts)]
          exact hnone
        by_cases htt : target = terminate
        · rw [if_pos htt] at heq
          cases heq
          exact hnone2
        · rw [if_neg htt] at heq
          exact ih _ _ _ hnone2 _ _ heq

/-- C10: for every engine state, source and terminate argument (including
graphs with self-loop edges), a successful `all_edges_with_terminate(s, t)`
returns a map with no entry for the source `s` itself. -/
theorem claim_C10_no_source_entry (g : CompleteGraph) (s terminate : Nat)
    (g1 : CompleteGraph) (m : List (Nat × (Nat × Nat)))
    (h : g.all_edges_with_terminate s terminate = some (g1, m)) :
    alookup s m = none := by
  have h0 : g.all_edges_with_terminate s terminate =
      (match dijkstraLoop s terminate (g.invalidate_previous_dijkstra).1
          (dijkstraFuel (g.invalidate_previous_dijkstra).2)
          (g.invalidate_previous_dijkstra).2.vertices
          (pqPush s ⟨0, s⟩ []) [] with
        | none => none
        | some (vs, computed_edges) =>
          some ({ (g.invalidate_previous_dijkstra).2 with vertices := vs },
            computed_edges)) := rfl
  rw [h0] at h
  cases hloop : dijkstraLoop s terminate (g.invalidate_previous_dijkstra).1
      (dijkstraFuel (g.invalidate_previous_dijkstra).2)
      (g.invalidate_previous_dijkstra).2.vertices
      (pqPush s ⟨0, s⟩ []) [] with
  | none =>
    rw [hloop] at h
    cases h
  | some p =>
    obtain ⟨vs1, ce1⟩ := p
    rw [hloop] at h
    have hm : m = ce1 := by
      cases h
      rfl
    rw [hm]
    exact dijkstraLoop_no_source s terminate _ _ _ _ ([]) rfl _ _ hloop

/-- C10 witness: an engine with a self-loop on the source still returns a map
with no entry for the source. -/
theorem claim_C10_witness :
    (CompleteGraph.new 1 [(0, 0, 5)]).all_edges_with_terminate 0 usizeMAX =
      some (⟨1, [⟨[(0, 5)], 1⟩], 1⟩, []) ∧
    alookup 0 ([] : List (Nat × (Nat × Nat))) = none :=
  ⟨by decide, claim_C10_no_source_entry (CompleteGraph.new 1 [(0, 0, 5)]) 0 usizeMAX
    ⟨1, [⟨[(0, 5)], 1⟩], 1⟩ [] (by decide)⟩

/-! ## Claim C1: all_edges computes true shortest distances -/

/-- C1 counterexample: the claim as stated quantifies over every vertex
reachable from `s`, but the source `s` is reachable from itself (by the empty
walk, `HasDist.base`) while the result map of a full traversal never contains
an entry for `s`; on the two-vertex graph with one edge the map from source 0
is exactly `[(1, (0, 1))]`, with no entry for the reachable vertex 0. -/
theorem claim_C1_counterexample :
    HasDist (fun u => edgesOf (CompleteGraph.new 2 [(0, 1, 1)]).vertices u) 0 0 0 ∧
    (CompleteGraph.new 2 [(0, 1, 1)]).all_edges 0 =
      some (⟨2, [⟨[(1, 1)], 1⟩, ⟨[(0, 1)], 1⟩], 1⟩, [(1, (0, 1))]) ∧
    alookup 0 [(1, ((0, 1) : Nat × Nat))] = none :=
  ⟨HasDist.base, by decide, by decide⟩

/-- C1 (amended: every reachable vertex other than the source itself): for
every skeleton graph built by `CompleteGraph.new` from in-range edges, and
every source `s`, the full traversal `all_edges(s)` succeeds and its map
contains, for every vertex `v ≠ s` reachable from `s`, an entry whose weight
is the true shortest-path distance from `s` to `v` and whose predecessor `p`
lies on some shortest path (there is an edge `p → v` and
`dist(s, p) + w(p, v) = dist(s, v)`). -/
theorem claim_C1_all_edges_shortest (n : Nat) (we : List (Nat × Nat × Nat))
    (s v : Nat)
    (hrange : ∀ e ∈ we, e.1 < n ∧ e.2.1 < n) (hn : n ≤ usizeMAX)
    (hs : s < n) (hv : v ≠ s)
    (hreach : Reachable (fun u => edgesOf (CompleteGraph.new n we).vertices u) s v) :
    ∃ g1 m p w, (CompleteGraph.new n we).all_edges s = some (g1, m) ∧
      alookup v m = some (p, w) ∧
      IsShortest (fun u => edgesOf (CompleteGraph.new n we).vertices u) s v w ∧
      ∃ wpv, alookup v (edgesOf (CompleteGraph.new n we).vertices p) = some wpv ∧
        ∃ dp, IsShortest (fun u => edgesOf (CompleteGraph.new n we).vertices u) s p dp ∧
          dp + wpv = w := by
  obtain ⟨hwf, hts⟩ := new_engineWF hrange hn
  obtain ⟨hnum, _, _, _, _, _⟩ := new_facts hrange
  obtain ⟨g1, m, hrun, _, _, _, _, _, _, hspec⟩ :=
    all_edges_with_terminate_run hwf hts s usizeMAX (by rw [hnum]; exact hs)
  have hcomp : ∀ v2 d, HasDist (fun u => edgesOf (CompleteGraph.new n we).vertices u) s v2 d →
      v2 = s ∨ ∃ x, alookup v2 m = some x := by
    rcases hspec.complete with ⟨x, hx⟩ | h
    · obtain ⟨p, w⟩ := x
      have h2 := (hspec.entry usizeMAX p w hx).2.1
      rw [hnum] at h2
      omega
    · exact h
  obtain ⟨d, hd⟩ := hreach
  rcases hcomp v d hd with h | ⟨⟨p, w⟩, hx⟩
  · exact absurd h hv
  · obtain ⟨h1, h2, h3, ⟨wpv, hwpv, dp, hdp, hsum⟩, h5⟩ := hspec.entry v p w hx
    rw [hnum] at *
    exact ⟨g1, m, p, w, hrun, hx, h3, wpv, hwpv, dp, hdp, hsum⟩

/-- C1 witness: on the two-vertex graph with edge `(0, 1)` of weight 1, the
amended theorem applies with source 0 and reachable vertex 1. -/
theorem claim_C1_witness :
    ∃ g1 m p w, (CompleteGraph.new 2 [(0, 1, 1)]).all_edges 0 = some (g1, m) ∧
      alookup 1 m = some (p, w) ∧
      IsShortest (fun u => edgesOf (CompleteGraph.new 2 [(0, 1, 1)]).vertices u) 0 1 w ∧
      ∃ wpv, alookup 1 (edgesOf (CompleteGraph.new 2 [(0, 1, 1)]).vertices p) = some wpv ∧
        ∃ dp, IsShortest (fun u => edgesOf (CompleteGraph.new 2 [(0, 1, 1)]).vertices u) 0 p dp ∧
          dp + wpv = w :=
  claim_C1_all_edges_shortest 2 [(0, 1, 1)] 0 1 (by decide) (by decide)
    (by decide) (by decide)
    ⟨0 + 1, HasDist.step HasDist.base (by decide)⟩

/-! ## Claim C3: termination, even on zero-weight cycles -/

/-- C3: for every constructed skeleton graph with in-range edges the
traversal loop terminates (the fuel `vertex_num + 1` always suffices, so the
embedded loop returns `some` instead of running out); in particular, on the
zero-weight 4-cycle `(0,1,0),(1,2,0),(2,3,0),(3,0,0)` plus `(0,4,7)`, the
full traversal from source 1 terminates and assigns vertex 4 the total
weight 7 (via predecessor 0). -/
theorem claim_C3_termination :
    (∀ (n : Nat) (we : List (Nat × Nat × Nat)) (s : Nat),
      (∀ e ∈ we, e.1 < n ∧ e.2.1 < n) → n ≤ usizeMAX → s < n →
      ∃ r, (CompleteGraph.new n we).all_edges s = some r) ∧
    ((CompleteGraph.new 5
        [(0, 1, 0), (1, 2, 0), (2, 3, 0), (3, 0, 0), (0, 4, 7)]).all_edges 1).map
      (fun r => alookup 4 r.2) = some (some (0, 7)) := by
  constructor
  · intro n we s hrange hn hs
    obtain ⟨hwf, hts⟩ := new_engineWF hrange hn
    obtain ⟨hnum, _, _, _, _, _⟩ := new_facts hrange
    obtain ⟨g1, m, hrun, _⟩ :=
      all_edges_with_terminate_run hwf hts s usizeMAX (by rw [hnum]; exact hs)
    exact ⟨(g1, m), hrun⟩
  · decide

/-- C3 witness: the general termination statement applied to a concrete
two-vertex graph. -/
theorem claim_C3_witness :
    ∃ r, (CompleteGraph.new 2 [(0, 1, 5)]).all_edges 0 = some r :=
  claim_C3_termination.1 2 [(0, 1, 5)] 0 (by decide) (by decide) (by decide)

/-! ## Claim C2: the equal-weight tie-break -/

/-- C2 counterexample: relaxing edge `(4, 2)` out of popped vertex `target=0`
(popped element `⟨weight 1, previous 3⟩`) against an existing frontier entry
`4 ↦ ⟨3, 5⟩` is an exact weight tie (`1 + 2 = 3`).  The code updates the
entry (to `⟨3, 0⟩`), because it compares `|4 - 3|` against `|4 - 5|` using
the popped element's `previous = 3` — but the claimed rule, which uses the
new candidate's predecessor `p = target = 0`, would compare `|4 - 0| = 4`
against `|4 - 5| = 1` and forbid the update. -/
theorem claim_C2_counterexample :
    alookup 4 [(4, (⟨3, 5⟩ : PriorityElement))] = some ⟨3, 5⟩ ∧
    (1 : Nat) + 2 = 3 ∧
    relaxOne [] 1 0 1 3 [(4, ⟨3, 5⟩)] (4, 2) = [(4, ⟨3, 0⟩)] ∧
    [(4, (⟨3, 0⟩ : PriorityElement))] ≠ [(4, ⟨3, 5⟩)] ∧
    ¬ specClaimedTieUpdate 4 0 5 := by
  refine ⟨rfl, rfl, rfl, by decide, ?_⟩
  unfold specClaimedTieUpdate index_distance
  decide

/-- C2 (amended): on an exact weight tie the frontier entry is updated iff
the index-distance from `neighbor` to `previous` — the predecessor recorded
in the POPPED element, not the new candidate's predecessor `target` — is
strictly smaller than the one to `existing_previous`, or the two
index-distances are equal and `previous` is strictly smaller than
`existing_previous`; and the relaxation step changes the frontier exactly
according to this `update` flag. -/
theorem claim_C2_tie_break_amended (vs : List CompleteGraphVertex)
    (active target weight previous neighbor neighbor_weight
      existing_weight existing_previous : Nat)
    (pq : List (Nat × PriorityElement))
    (hlk : alookup neighbor pq = some ⟨existing_weight, existing_previous⟩)
    (htie : weight + neighbor_weight = existing_weight) :
    relaxOne vs active target weight previous pq (neighbor, neighbor_weight) =
      (if relaxUpdate neighbor previous (weight + neighbor_weight)
          existing_weight existing_previous
       then pqChangePriority neighbor ⟨weight + neighbor_weight, target⟩ pq
       else pq) ∧
    (relaxUpdate neighbor previous (weight + neighbor_weight)
        existing_weight existing_previous = true ↔
      (index_distance neighbor previous < index_distance neighbor existing_previous ∨
        (index_distance neighbor previous = index_distance neighbor existing_previous ∧
          previous < existing_previous))) := by
  constructor
  · have hlk2 : alookup (neighbor, neighbor_weight).1 pq =
        some ⟨existing_weight, existing_previous⟩ := hlk
    exact relaxOne_eq_some hlk2
  · unfold relaxUpdate
    have h1 : ¬ (weight + neighbor_weight < existing_weight) := by omega
    rw [if_neg h1, if_pos htie]
    simp only [decide_eq_true_eq]

/-- C2 witness: the amended characterization at the concrete relaxation state
of the counterexample (where the code-side rule fires). -/
theorem claim_C2_witness :
    (relaxOne [] 1 0 1 3 [(4, ⟨3, 5⟩)] (4, 2) =
      (if relaxUpdate 4 3 (1 + 2) 3 5
       then pqChangePriority 4 ⟨1 + 2, 0⟩ [(4, ⟨3, 5⟩)] else [(4, ⟨3, 5⟩)])) ∧
    (relaxUpdate 4 3 (1 + 2) 3 5 = true ↔
      (index_distance 4 3 < index_distance 4 5 ∨
        (index_distance 4 3 = index_distance 4 5 ∧ 3 < 5))) :=
  claim_C2_tie_break_amended [] 1 0 1 3 4 2 3 5 [(4, ⟨3, 5⟩)] rfl rfl

/-! ## Claim C5: early termination agrees with the full run -/

theorem dijkstraLoop_persist {E : Nat → List (Nat × Nat)} {n s active : Nat}
    (hE : ∀ u, ∀ nb ∈ E u, nb.1 < n)
    (hEnd : ∀ u, ((E u).map Prod.fst).Nodup) (t2 : Nat) :
    ∀ (fuel : Nat) (vs : List CompleteGraphVertex)
      (pq : List (Nat × PriorityElement)) (ce : List (Nat × (Nat × Nat))),
      LoopInv E n s active vs pq ce →
      ∀ k x, alookup k ce = some x →
      ∀ vs1 ce1, dijkstraLoop s t2 active fuel vs pq ce = some (vs1, ce1) →
      alookup k ce1 = some x := by
  intro fuel
  induction fuel with
  | zero =>
    intro vs pq ce inv k x hkx vs1 ce1 heq
    cases hpop : popMin pq with
    | none =>
      rw [dijkstraLoop_none hpop] at heq
      cases heq
      exact hkx
    | some p =>
      obtain ⟨⟨target, pe⟩, pq2⟩ := p
      rw [dijkstraLoop_some_zero hpop] at heq
      cases heq
  | succ fuel ih =>
    intro vs pq ce inv k x hkx vs1 ce1 heq
    cases hpop : popMin pq with
    | none =>
      rw [dijkstraLoop_none hpop] at heq
      cases heq
      exact hkx
    | some p =>
      obtain ⟨⟨target, pe⟩, pq2⟩ := p
      obtain ⟨htlt, htunv, hshort, hce_t, hdec, hgrow1, inv2⟩ :=
        step_preserve hE hEnd inv hpop
      rw [dijkstraLoop_some_succ hpop] at heq
      by_cases hts : target = s
      · rw [if_neg (not_not_intro hts)] at heq
        rw [if_pos hts] at inv2
        exact ih _ _ _ inv2 k x hkx _ _ heq
      · rw [if_pos hts] at heq
        rw [if_neg hts] at inv2 hgrow1
        by_cases htt : target = t2
        · rw [if_pos htt] at heq
          cases heq
          exact hgrow1 k x hkx
        · rw [if_neg htt] at heq
          exact ih _ _ _ inv2 k x (hgrow1 k x hkx) _ _ heq

theorem dijkstraLoop_agree {E : Nat → List (Nat × Nat)} {n s active : Nat}
    (hE : ∀ u, ∀ nb ∈ E u, nb.1 < n)
    (hEnd : ∀ u, ((E u).map Prod.fst).Nodup) {T : Nat} (hT : n ≤ T) (t : Nat) :
    ∀ (fuel : Nat) (vs : List CompleteGraphVertex)
      (pq : List (Nat × PriorityElement)) (ce : List (Nat × (Nat × Nat))),
      LoopInv E n s active vs pq ce →
      alookup t ce = none →
      ∀ vs1 ce1, dijkstraLoop s t active fuel vs pq ce = some (vs1, ce1) →
      ∀ x, alookup t ce1 = some x →
      ∀ vs2 ce2, dijkstraLoop s T active fuel vs pq ce = some (vs2, ce2) →
      alookup t ce2 = some x := by
  intro fuel
  induction fuel with
  | zero =>
    intro vs pq ce inv hnone vs1 ce1 heq1 x hx vs2 ce2 heq2
    cases hpop : popMin pq with
    | none =>
      rw [dijkstraLoop_none hpop] at heq1
      cases heq1
      rw [hnone] at hx
      cases hx
    | some p =>
      obtain ⟨⟨target, pe⟩, pq2⟩ := p
      rw [dijkstraLoop_some_zero hpop] at heq1
      cases heq1
  | succ fuel ih =>
    intro vs pq ce inv hnone vs1 ce1 heq1 x hx vs2 ce2 heq2
    cases hpop : popMin pq with
    | none =>
      rw [dijkstraLoop_none hpop] at heq1
      cases heq1
      rw [hnone] at hx
      cases hx
    | some p =>
      obtain ⟨⟨target, pe⟩, pq2⟩ := p
      obtain ⟨htlt, htunv, hshort, hce_t, hdec, hgrow1, inv2⟩ :=
        step_preserve hE hEnd inv hpop
      rw [dijkstraLoop_some_succ hpop] at heq1 heq2
      by_cases hts : target = s
      · rw [if_neg (not_not_intro hts)] at heq1 heq2
        rw [if_pos hts] at inv2
        exact ih _ _ _ inv2 hnone _ _ heq1 x hx _ _ heq2
      · rw [if_pos hts] at heq1 heq2
        rw [if_neg hts] at inv2 hgrow1
        have htT : target ≠ T := by omega
        rw [if_neg htT] at heq2
        by_cases htt : target = t
        · rw [if_pos htt] at heq1
          cases heq1
          have hx2 : alookup t (btreeInsert target (pe.previous, pe.weight) ce)
              = some (pe.previous, pe.weight) := by
            rw [← htt]
            exact alookup_btreeInsert_self _ _ _
          rw [hx2] at hx
          cases hx
          exact dijkstraLoop_persist hE hEnd T fuel _ _ _ inv2 t
            (pe.previous, pe.weight) hx2 _ _ heq2
        · rw [if_neg htt] at heq1
          have hnone2 : alookup t
              (btreeInsert target (pe.previous, pe.weight) ce) = none := by
            rw [alookup_btreeInsert_ne _ _ (Ne.symm htt)]
            exact hnone
          exact ih _ _ _ inv2 hnone2 _ _ heq1 x hx _ _ heq2

theorem initial_inv {g : CompleteGraph} (hwf : EngineWF g) (hts : TsOK g)
    {s : Nat} (hs : s < g.vertex_num) :
    LoopInv (fun u => edgesOf g.vertices u) g.vertex_num s
      (g.invalidate_previous_dijkstra).1
      (g.invalidate_previous_dijkstra).2.vertices (pqPush s ⟨0, s⟩ []) [] := by
  obtain ⟨hact, hnum, hlen2, hedges2, hpos, hfresh⟩ :=
    invalidate_fresh hwf.len_eq hts
  have hunv : ∀ v, ¬ visitedAt (g.invalidate_previous_dijkstra).2.vertices
      (g.invalidate_previous_dijkstra).1 v := by
    intro v hc
    unfold visitedAt at hc
    have h2 := hfresh v
    omega
  refine ⟨hlen2.trans hwf.len_eq, hpos, hedges2, by simp [pqPush], ?_, ?_, ?_,
    ?_, ?_, ?_, ?_, ?_⟩
  · intro x hx
    simp only [pqPush, List.nil_append, List.mem_singleton] at hx
    rw [hx]
    exact hs
  · intro x hx
    exact hunv x.1
  · intro x hx
    simp only [pqPush, List.nil_append, List.mem_singleton] at hx
    rw [hx]
    exact Or.inl ⟨rfl, rfl⟩
  · intro v p w h
    simp [alookup] at h
  · intro v hv
    exact absurd hv (hunv v)
  · intro u hu
    exact absurd hu (hunv u)
  · intro _
    simp [pqPush, alookup]
  · intro v x h
    simp [alookup] at h

theorem initial_count (g : CompleteGraph) :
    countUnvisited (g.invalidate_previous_dijkstra).2.vertices
      (g.invalidate_previous_dijkstra).1 g.vertex_num ≤
      dijkstraFuel (g.invalidate_previous_dijkstra).2 := by
  unfold countUnvisited dijkstraFuel
  have h1 : ((Finset.range g.vertex_num).filter
      (fun v => ¬ visitedAt (g.invalidate_previous_dijkstra).2.vertices
        (g.invalidate_previous_dijkstra).1 v)).card ≤
      (Finset.range g.vertex_num).card := Finset.card_filter_le _ _
  rw [Finset.card_range] at h1
  have h2 : g.vertex_num = (g.invalidate_previous_dijkstra).2.vertex_num := by
    unfold CompleteGraph.invalidate_previous_dijkstra
    by_cases hw : g.active_timestamp = usizeMAX
    · rw [if_pos hw]
    · rw [if_neg hw]
  omega

/-- Bridge between the engine call and the underlying loop run. -/
theorem all_edges_with_terminate_of_loop {g : CompleteGraph} {s t : Nat}
    {vs1 : List CompleteGraphVertex} {ce1 : List (Nat × (Nat × Nat))}
    (heq : dijkstraLoop s t (g.invalidate_previous_dijkstra).1
      (dijkstraFuel (g.invalidate_previous_dijkstra).2)
      (g.invalidate_previous_dijkstra).2.vertices
      (pqPush s ⟨0, s⟩ []) [] = some (vs1, ce1)) :
    g.all_edges_with_terminate s t =
      some ({ (g.invalidate_previous_dijkstra).2 with vertices := vs1 }, ce1) := by
  have h0 : g.all_edges_with_terminate s t =
      (match dijkstraLoop s t (g.invalidate_previous_dijkstra).1
          (dijkstraFuel (g.invalidate_previous_dijkstra).2)
          (g.invalidate_previous_dijkstra).2.vertices
          (pqPush s ⟨0, s⟩ []) [] with
        | none => none
        | some (vs, computed_edges) =>
          some ({ (g.invalidate_previous_dijkstra).2 with vertices := vs },
            computed_edges)) := rfl
  rw [h0, heq]

theorem loop_of_all_edges_with_terminate {g g1 : CompleteGraph} {s t : Nat}
    {m : List (Nat × (Nat × Nat))}
    (h : g.all_edges_with_terminate s t = some (g1, m)) :
    dijkstraLoop s t (g.invalidate_previous_dijkstra).1
      (dijkstraFuel (g.invalidate_previous_dijkstra).2)
      (g.invalidate_previous_dijkstra).2.vertices
      (pqPush s ⟨0, s⟩ []) [] = some (g1.vertices, m) := by
  have h0 : g.all_edges_with_terminate s t =
      (match dijkstraLoop s t (g.invalidate_previous_dijkstra).1
          (dijkstraFuel (g.invalidate_previous_dijkstra).2)
          (g.invalidate_previous_dijkstra).2.vertices
          (pqPush s ⟨0, s⟩ []) [] with
        | none => none
        | some (vs, computed_edges) =>
          some ({ (g.invalidate_previous_dijkstra).2 with vertices := vs },
            computed_edges)) := rfl
  rw [h0] at h
  cases hloop : dijkstraLoop s t (g.invalidate_previous_dijkstra).1
      (dijkstraFuel (g.invalidate_previous_dijkstra).2)
      (g.invalidate_previous_dijkstra).2.vertices
      (pqPush s ⟨0, s⟩ []) [] with
  | none =>
    rw [hloop] at h
    cases h
  | some p =>
    obtain ⟨vs1, ce1⟩ := p
    rw [hloop] at h
    have h3 : (({ (g.invalidate_previous_dijkstra).2 with vertices := vs1 }
        : CompleteGraph), ce1) = (g1, m) := Option.some.inj h
    have hg : vs1 = g1.vertices :=
      congrArg CompleteGraph.vertices (congrArg Prod.fst h3)
    have hm : ce1 = m := congrArg Prod.snd h3
    rw [← hg, ← hm]

/-- C5: on a well-formed engine, if the early-terminating run
`all_edges_with_terminate(s, t)` produced an entry for `t`, the full run
`all_edges(s)` from the same engine state produces the identical entry
(same predecessor and weight) for `t`. -/
theorem claim_C5_early_termination (g : CompleteGraph) (s t : Nat)
    (hwf : EngineWF g) (hts : TsOK g) (hs : s < g.vertex_num)
    (g1 : CompleteGraph) (m1 : List (Nat × (Nat × Nat))) (x : Nat × Nat)
    (h1 : g.all_edges_with_terminate s t = some (g1, m1))
    (hx : alookup t m1 = some x) :
    ∃ g2 m2, g.all_edges s = some (g2, m2) ∧ alookup t m2 = some x := by
  have hinv := initial_inv hwf hts hs
  have hcount := initial_count g
  obtain ⟨vsF, ceF, heqF, _⟩ := dijkstraLoop_master hwf.edge_range
    hwf.edge_nodup usizeMAX (dijkstraFuel (g.invalidate_previous_dijkstra).2)
    _ _ _ hinv hcount
  have hloop1 := loop_of_all_edges_with_terminate h1
  have hagree := dijkstraLoop_agree hwf.edge_range hwf.edge_nodup hwf.num_le t
    (dijkstraFuel (g.invalidate_previous_dijkstra).2) _ _ _ hinv rfl
    _ _ hloop1 x hx _ _ heqF
  exact ⟨{ (g.invalidate_previous_dijkstra).2 with vertices := vsF }, ceF,
    all_edges_with_terminate_of_loop heqF, hagree⟩

/-- C5 witness: on the three-vertex path graph, the early run to target 2 and
the full run record the same entry for vertex 2. -/
theorem claim_C5_witness :
    ∃ g2 m2, (CompleteGraph.new 3 [(0, 1, 4), (1, 2, 4), (0, 2, 10)]).all_edges 0 =
      some (g2, m2) ∧ alookup 2 m2 = some (1, 8) :=
  claim_C5_early_termination (CompleteGraph.new 3 [(0, 1, 4), (1, 2, 4), (0, 2, 10)])
    0 2 (new_engineWF (by decide) (by decide)).1 (new_engineWF (by decide) (by decide)).2
    (by decide)
    ⟨3, [⟨[(1, 4), (2, 10)], 1⟩, ⟨[(0, 4), (2, 4)], 1⟩, ⟨[(0, 10), (1, 4)], 1⟩], 1⟩
    [(1, (0, 4)), (2, (1, 8))] (1, 8) (by decide) (by decide)

/-! ## Claim C8: calling all_edges twice returns identical maps -/

theorem relaxOne_eqv {vsA vsB : List CompleteGraphVertex} {aA aB : Nat}
    (hvis : ∀ v, visitedAt vsB aB v ↔ visitedAt vsA aA v)
    (target weight previous : Nat) (pq : List (Nat × PriorityElement))
    (nb : Nat × Nat) :
    relaxOne vsB aB target weight previous pq nb =
      relaxOne vsA aA target weight previous pq nb := by
  cases hlk : alookup nb.1 pq with
  | some pe2 =>
    rw [relaxOne_eq_some hlk, relaxOne_eq_some hlk]
  | none =>
    rw [relaxOne_eq_none hlk, relaxOne_eq_none hlk]
    by_cases hA : (vsA.getD nb.1 dfltVertex).timestamp ≠ aA
    · rw [if_pos hA, if_pos (show (vsB.getD nb.1 dfltVertex).timestamp ≠ aB from
        fun hc => hA ((hvis nb.1).mp hc))]
    · rw [if_neg hA, if_neg (show ¬ (vsB.getD nb.1 dfltVertex).timestamp ≠ aB from
        fun hc => hc ((hvis nb.1).mpr (not_not.mp hA)))]

theorem relaxNeighbors_eqv {vsA vsB : List CompleteGraphVertex} {aA aB : Nat}
    (hvis : ∀ v, visitedAt vsB aB v ↔ visitedAt vsA aA v)
    {target : Nat} (hedge : edgesOf vsB target = edgesOf vsA target)
    (weight previous : Nat) (pq : List (Nat × PriorityElement)) :
    relaxNeighbors vsB aB target weight previous pq =
      relaxNeighbors vsA aA target weight previous pq := by
  rw [relaxNeighbors_eq (Eq.refl (edgesOf vsB target)),
    relaxNeighbors_eq (Eq.refl (edgesOf vsA target)), hedge]
  have hgen : ∀ (L : List (Nat × Nat)) (q : List (Nat × PriorityElement)),
      L.foldl (relaxOne vsB aB target weight previous) q =
      L.foldl (relaxOne vsA aA target weight previous) q := by
    intro L
    induction L with
    | nil => intro q; rfl
    | cons nb rest ih =>
      intro q
      rw [List.foldl_cons, List.foldl_cons, relaxOne_eqv hvis, ih]
  exact hgen _ pq

theorem dijkstraLoop_bisim {E : Nat → List (Nat × Nat)} {n s active : Nat}
    (active2 : Nat)
    (hE : ∀ u, ∀ nb ∈ E u, nb.1 < n)
    (hEnd : ∀ u, ((E u).map Prod.fst).Nodup) (t : Nat) :
    ∀ (fuel : Nat) (vs vs2 : List CompleteGraphVertex)
      (pq : List (Nat × PriorityElement)) (ce : List (Nat × (Nat × Nat))),
      LoopInv E n s active vs pq ce →
      vs2.length = n →
      (∀ u, edgesOf vs2 u = E u) →
      (∀ v, visitedAt vs2 active2 v ↔ visitedAt vs active v) →
      (dijkstraLoop s t active fuel vs pq ce).map Prod.snd =
        (dijkstraLoop s t active2 fuel vs2 pq ce).map Prod.snd := by
  intro fuel
  induction fuel with
  | zero =>
    intro vs vs2 pq ce inv hlen2 hedges2 hvis
    cases hpop : popMin pq with
    | none =>
      rw [dijkstraLoop_none hpop, dijkstraLoop_none hpop]
      rfl
    | some p =>
      obtain ⟨⟨target, pe⟩, pq2⟩ := p
      rw [dijkstraLoop_some_zero hpop, dijkstraLoop_some_zero hpop]
  | succ fuel ih =>
    intro vs vs2 pq ce inv hlen2 hedges2 hvis
    cases hpop : popMin pq with
    | none =>
      rw [dijkstraLoop_none hpop, dijkstraLoop_none hpop]
      rfl
    | some p =>
      obtain ⟨⟨target, pe⟩, pq2⟩ := p
      obtain ⟨htlt, htunv, hshort, hce_t, hdec, hgrow1, inv2⟩ :=
        step_preserve hE hEnd inv hpop
      rw [dijkstraLoop_some_succ hpop, dijkstraLoop_some_succ hpop]
      have hlenvsA : target < vs.length := Nat.lt_of_lt_of_eq htlt inv.len_eq.symm
      have hlenvsB : target < vs2.length := Nat.lt_of_lt_of_eq htlt hlen2.symm
      have hvis2 : ∀ v, visitedAt (markVisited vs2 target active2) active2 v ↔
          visitedAt (markVisited vs target active) active v := by
        intro v
        rw [visitedAt_mark active2 hlenvsB v, visitedAt_mark active hlenvsA v]
        exact or_congr Iff.rfl (hvis v)
      have hlen2' : (markVisited vs2 target active2).length = n := by
        rw [markVisited_length]
        exact hlen2
      have hedges2' : ∀ u, edgesOf (markVisited vs2 target active2) u = E u :=
        fun u => (edgesOf_mark vs2 target active2 u).trans (hedges2 u)
      have hedgesA' : ∀ u, edgesOf (markVisited vs target active) u = E u :=
        fun u => (edgesOf_mark vs target active u).trans (inv.edges_eq u)
      have hpq : relaxNeighbors (markVisited vs2 target active2) active2 target
          pe.weight pe.previous pq2 =
          relaxNeighbors (markVisited vs target active) active target
          pe.weight pe.previous pq2 :=
        relaxNeighbors_eqv hvis2
          ((hedges2' target).trans (hedgesA' target).symm) _ _ _
      rw [hpq]
      by_cases hts : target = s
      · rw [if_neg (not_not_intro hts), if_neg (not_not_intro hts)]
        rw [if_pos hts] at inv2
        exact ih _ _ _ _ inv2 hlen2' hedges2' hvis2
      · rw [if_pos hts, if_pos hts]
        rw [if_neg hts] at inv2
        by_cases htt : target = t
        · rw [if_pos htt, if_pos htt]
          rfl
        · rw [if_neg htt, if_neg htt]
          exact ih _ _ _ _ inv2 hlen2' hedges2' hvis2

/-- C8: on a well-formed engine, running the full traversal `all_edges(s)`
twice in a row (the second run on the engine state returned by the first)
yields identical result maps, despite the advanced invalidation clock. -/
theorem claim_C8_idempotent (g : CompleteGraph) (s : Nat)
    (hwf : EngineWF g) (hts : TsOK g) (hs : s < g.vertex_num)
    (g1 g2 : CompleteGraph) (m1 m2 : List (Nat × (Nat × Nat)))
    (h1 : g.all_edges s = some (g1, m1)) (h2 : g1.all_edges s = some (g2, m2)) :
    m1 = m2 := by
  obtain ⟨g1x, m1x, hrun, hnum1, hlen1, hedges1, hwf1, hts1, _, _⟩ :=
    all_edges_with_terminate_run hwf hts s usizeMAX hs
  have h1x : g.all_edges_with_terminate s usizeMAX = some (g1, m1) := h1
  rw [hrun] at h1x
  have h3 : (g1x, m1x) = (g1, m1) := Option.some.inj h1x
  have hg1 : g1x = g1 := congrArg Prod.fst h3
  subst hg1
  have hloop1 := loop_of_all_edges_with_terminate
    (show g.all_edges_with_terminate s usizeMAX = some (g1x, m1) from h1)
  have hloop2 := loop_of_all_edges_with_terminate
    (show g1x.all_edges_with_terminate s usizeMAX = some (g2, m2) from h2)
  obtain ⟨hact1, hnum1i, hlen1i, hedges1i, hpos1, hfresh1⟩ :=
    invalidate_fresh hwf.len_eq hts
  obtain ⟨hact2, hnum2i, hlen2i, hedges2i, hpos2, hfresh2⟩ :=
    invalidate_fresh hwf1.len_eq hts1
  have hinv := initial_inv hwf hts hs
  have hfuel : dijkstraFuel (g1x.invalidate_previous_dijkstra).2 =
      dijkstraFuel (g.invalidate_previous_dijkstra).2 := by
    unfold dijkstraFuel
    rw [hnum2i, hnum1i, hnum1]
  have hbis := dijkstraLoop_bisim (g1x.invalidate_previous_dijkstra).1
    hwf.edge_range hwf.edge_nodup usizeMAX
    (dijkstraFuel (g.invalidate_previous_dijkstra).2)
    (g.invalidate_previous_dijkstra).2.vertices
    (g1x.invalidate_previous_dijkstra).2.vertices
    (pqPush s ⟨0, s⟩ []) [] hinv
    (by rw [hlen2i, hwf1.len_eq, hnum1])
    (fun u => by rw [hedges2i u, hedges1 u])
    (by
      intro v
      constructor
      · intro hc
        unfold visitedAt at hc
        have hx := hfresh2 v
        omega
      · intro hc
        unfold visitedAt at hc
        have hx := hfresh1 v
        omega)
  rw [hfuel] at hloop2
  rw [hloop1, hloop2] at hbis
  exact Option.some.inj hbis

/-- C8 witness: running the full traversal twice on a concrete engine. -/
theorem claim_C8_witness :
    ([(1, ((0, 4) : Nat × Nat)), (2, (1, 8))] : List (Nat × (Nat × Nat))) =
      [(1, (0, 4)), (2, (1, 8))] :=
  claim_C8_idempotent (CompleteGraph.new 3 [(0, 1, 4), (1, 2, 4), (0, 2, 10)]) 0
    (new_engineWF (by decide) (by decide)).1 (new_engineWF (by decide) (by decide)).2
    (by decide)
    ⟨3, [⟨[(1, 4), (2, 10)], 1⟩, ⟨[(0, 4), (2, 4)], 1⟩, ⟨[(0, 10), (1, 4)], 1⟩], 1⟩
    ⟨3, [⟨[(1, 4), (2, 10)], 2⟩, ⟨[(0, 4), (2, 4)], 2⟩, ⟨[(0, 10), (1, 4)], 2⟩], 2⟩
    [(1, (0, 4)), (2, (1, 8))] [(1, (0, 4)), (2, (1, 8))]
    (by decide) (by decide)

/-! ## Claim C6: clock wrap resets and matches a fresh engine -/

theorem vertex_eq_of {v w : CompleteGraphVertex} (he : v.edges = w.edges)
    (ht : v.timestamp = w.timestamp) : v = w := by
  cases v
  cases w
  simp only at he ht
  rw [he, ht]

theorem vertices_ext {l1 l2 : List CompleteGraphVertex}
    (hlen : l1.length = l2.length)
    (hts : ∀ i, tsOf l1 i = tsOf l2 i)
    (hedges : ∀ i, edgesOf l1 i = edgesOf l2 i) : l1 = l2 := by
  apply List.ext_getElem hlen
  intro i h1 h2
  apply vertex_eq_of
  · have h3 := hedges i
    unfold edgesOf at h3
    rw [List.getD_eq_getElem _ _ h1, List.getD_eq_getElem _ _ h2] at h3
    exact h3
  · have h3 := hts i
    unfold tsOf at h3
    rw [List.getD_eq_getElem _ _ h1, List.getD_eq_getElem _ _ h2] at h3
    exact h3

/-- C6: when the invalidation clock sits at `usize::MAX`, the next
`invalidate_previous_dijkstra` resets the clock to 1 and physically resets
every stored timestamp to 0 in the same call, and the traversal that follows
returns exactly what a freshly constructed engine over the same skeleton
graph returns for the same query. -/
theorem claim_C6_clock_wrap (n : Nat) (we : List (Nat × Nat × Nat))
    (g : CompleteGraph) (s : Nat)
    (hrange : ∀ e ∈ we, e.1 < n ∧ e.2.1 < n)
    (hnum : g.vertex_num = n) (hlen : g.vertices.length = n)
    (hedges : ∀ u, edgesOf g.vertices u =
      edgesOf (CompleteGraph.new n we).vertices u)
    (hmax : g.active_timestamp = usizeMAX) :
    (g.invalidate_previous_dijkstra).1 = 1 ∧
    (g.invalidate_previous_dijkstra).2.active_timestamp = 1 ∧
    (∀ v, tsOf (g.invalidate_previous_dijkstra).2.vertices v = 0) ∧
    g.all_edges s = (CompleteGraph.new n we).all_edges s := by
  obtain ⟨hn1, hn2, hn3, hn4, hn5, hn6⟩ := new_facts hrange
  have hg_inv : g.invalidate_previous_dijkstra =
      (1, ⟨g.vertex_num, (List.range g.vertex_num).foldl
        (fun vs i => vs.set i { vs.getD i dfltVertex with timestamp := 0 })
        g.vertices, 1⟩) := by
    unfold CompleteGraph.invalidate_previous_dijkstra
    rw [if_pos hmax]
  have hnew_ne : (CompleteGraph.new n we).active_timestamp ≠ usizeMAX := by
    rw [hn2]
    unfold usizeMAX
    norm_num
  have hnew_inv : (CompleteGraph.new n we).invalidate_previous_dijkstra =
      (1, ⟨(CompleteGraph.new n we).vertex_num,
        (CompleteGraph.new n we).vertices, 1⟩) := by
    unfold CompleteGraph.invalidate_previous_dijkstra
    rw [if_neg hnew_ne]
    show ((CompleteGraph.new n we).active_timestamp + 1,
      ({ vertex_num := (CompleteGraph.new n we).vertex_num,
         vertices := (CompleteGraph.new n we).vertices,
         active_timestamp := (CompleteGraph.new n we).active_timestamp + 1 }
        : CompleteGraph)) =
      (1, ⟨(CompleteGraph.new n we).vertex_num,
        (CompleteGraph.new n we).vertices, 1⟩)
    rw [hn2]
  obtain ⟨hrlen, hredges, hrts, hrmem⟩ :=
    resetFold_facts (List.range g.vertex_num) g.vertices
  have hts0 : ∀ v, tsOf ((List.range g.vertex_num).foldl
      (fun vs i => markVisited vs i 0) g.vertices) v = 0 := by
    intro v
    by_cases hv : v < g.vertex_num
    · rcases hrmem v (List.mem_range.mpr hv) with h | h
      · exact h
      · rw [hlen, ← hnum] at h
        omega
    · rcases hrts v with h | h
      · exact h
      · rw [h]
        exact tsOf_oob (by rw [hlen, ← hnum]; exact Nat.le_of_not_lt hv)
  have hvs_eq : ((List.range g.vertex_num).foldl
      (fun vs i => vs.set i { vs.getD i dfltVertex with timestamp := 0 })
      g.vertices) = (CompleteGraph.new n we).vertices := by
    apply vertices_ext
    · show ((List.range g.vertex_num).foldl
        (fun vs i => markVisited vs i 0) g.vertices).length = _
      rw [hrlen, hlen, hn3]
    · intro i
      show tsOf ((List.range g.vertex_num).foldl
        (fun vs i => markVisited vs i 0) g.vertices) i = _
      rw [hts0 i, hn4 i]
    · intro i
      show edgesOf ((List.range g.vertex_num).foldl
        (fun vs i => markVisited vs i 0) g.vertices) i = _
      rw [hredges i, hedges i]
  have hpair : g.invalidate_previous_dijkstra =
      (CompleteGraph.new n we).invalidate_previous_dijkstra := by
    rw [hg_inv, hnew_inv, hvs_eq, hnum, hn1]
  refine ⟨by rw [hg_inv], by rw [hg_inv], ?_, ?_⟩
  · intro v
    rw [hg_inv]
    exact hts0 v
  · unfold CompleteGraph.all_edges CompleteGraph.all_edges_with_terminate
    rw [hpair]

/-- C6 witness: a two-vertex engine with stale timestamps and the clock at
`usize::MAX` behaves like a fresh engine after the wrap. -/
theorem claim_C6_witness :
    ((⟨2, [⟨[(1, 3)], 7⟩, ⟨[(0, 3)], 5⟩], usizeMAX⟩ :
        CompleteGraph).invalidate_previous_dijkstra).1 = 1 ∧
    ((⟨2, [⟨[(1, 3)], 7⟩, ⟨[(0, 3)], 5⟩], usizeMAX⟩ :
        CompleteGraph).invalidate_previous_dijkstra).2.active_timestamp = 1 ∧
    (∀ v, tsOf ((⟨2, [⟨[(1, 3)], 7⟩, ⟨[(0, 3)], 5⟩], usizeMAX⟩ :
        CompleteGraph).invalidate_previous_dijkstra).2.vertices v = 0) ∧
    (⟨2, [⟨[(1, 3)], 7⟩, ⟨[(0, 3)], 5⟩], usizeMAX⟩ :
        CompleteGraph).all_edges 0 = (CompleteGraph.new 2 [(0, 1, 3)]).all_edges 0 :=
  claim_C6_clock_wrap 2 [(0, 1, 3)]
    ⟨2, [⟨[(1, 3)], 7⟩, ⟨[(0, 3)], 5⟩], usizeMAX⟩ 0
    (by decide) rfl (by decide)
    (by
      intro u
      match u with
      | 0 => rfl
      | 1 => rfl
      | u + 2 => rfl)
    rfl

/-! ## Claim C9: timestamp monotonicity -/

theorem completeGraph_eq {a b : CompleteGraph}
    (h1 : a.vertex_num = b.vertex_num) (h2 : a.vertices = b.vertices)
    (h3 : a.active_timestamp = b.active_timestamp) : a = b := by
  cases a
  cases b
  simp only at h1 h2 h3
  rw [h1, h2, h3]

theorem invalidate_no_wrap {g : CompleteGraph}
    (hnw : g.active_timestamp ≠ usizeMAX) :
    (g.invalidate_previous_dijkstra).1 = g.active_timestamp + 1 ∧
    (g.invalidate_previous_dijkstra).2.vertex_num = g.vertex_num ∧
    (g.invalidate_previous_dijkstra).2.vertices = g.vertices ∧
    (g.invalidate_previous_dijkstra).2.active_timestamp =
      g.active_timestamp + 1 := by
  unfold CompleteGraph.invalidate_previous_dijkstra
  rw [if_neg hnw]
  exact ⟨rfl, rfl, rfl, rfl⟩

theorem iterInvalidate_no_wrap :
    ∀ (k : Nat) (g : CompleteGraph), g.active_timestamp + k ≤ usizeMAX →
      (iterInvalidate k g).vertices = g.vertices ∧
      (iterInvalidate k g).vertex_num = g.vertex_num ∧
      (iterInvalidate k g).active_timestamp = g.active_timestamp + k := by
  intro k
  induction k with
  | zero =>
    intro g h
    exact ⟨rfl, rfl, rfl⟩
  | succ k ih =>
    intro g h
    have hne : g.active_timestamp ≠ usizeMAX := by omega
    obtain ⟨h1, h2, h3, h4⟩ := invalidate_no_wrap hne
    have hstep : iterInvalidate (k + 1) g =
        iterInvalidate k (g.invalidate_previous_dijkstra).2 := rfl
    rw [hstep]
    obtain ⟨i1, i2, i3⟩ := ih (g.invalidate_previous_dijkstra).2
      (by rw [h4]; omega)
    refine ⟨i1.trans h3, i2.trans h2, ?_⟩
    rw [i3, h4]
    omega

theorem dijkstraLoop_ts_or (vertex terminate active : Nat) :
    ∀ (fuel : Nat) (vs : List CompleteGraphVertex)
      (pq : List (Nat × PriorityElement)) (ce : List (Nat × (Nat × Nat)))
      (vs1 : List CompleteGraphVertex) (ce1 : List (Nat × (Nat × Nat))),
      dijkstraLoop vertex terminate active fuel vs pq ce = some (vs1, ce1) →
      ∀ v, tsOf vs1 v = tsOf vs v ∨ tsOf vs1 v = active := by
  have hmark : ∀ (vs : List CompleteGraphVertex) (t v : Nat),
      tsOf (markVisited vs t active) v = tsOf vs v ∨
      tsOf (markVisited vs t active) v = active := by
    intro vs t v
    by_cases hvt : v = t
    · subst hvt
      by_cases hl : v < vs.length
      · exact Or.inr (tsOf_mark_self active hl)
      · rw [markVisited_oob (Nat.le_of_not_lt hl)]
        exact Or.inl rfl
    · rw [tsOf_mark_ne vs t active hvt]
      exact Or.inl rfl
  intro fuel
  induction fuel with
  | zero =>
    intro vs pq ce vs1 ce1 heq v
    cases hpop : popMin pq with
    | none =>
      rw [dijkstraLoop_none hpop] at heq
      cases heq
      exact Or.inl rfl
    | some p =>
      obtain ⟨⟨target, pe⟩, pq2⟩ := p
      rw [dijkstraLoop_some_zero hpop] at heq
      cases heq
  | succ fuel ih =>
    intro vs pq ce vs1 ce1 heq v
    cases hpop : popMin pq with
    | none =>
      rw [dijkstraLoop_none hpop] at heq
      cases heq
      exact Or.inl rfl
    | some p =>
      obtain ⟨⟨target, pe⟩, pq2⟩ := p
      rw [dijkstraLoop_some_succ hpop] at heq
      have hcompose : ∀ vs2 : List CompleteGraphVertex,
          (tsOf vs1 v = tsOf (markVisited vs target active) v ∨
            tsOf vs1 v = active) →
          tsOf vs1 v = tsOf vs v ∨ tsOf vs1 v = active := by
        intro vs2 h
        rcases h with h | h
        · rcases hmark vs target v with h2 | h2
          · rw [h2] at h
            exact Or.inl h
          · rw [h2] at h
            exact Or.inr h
        · exact Or.inr h
      by_cases hts : target = vertex
      · rw [if_neg (not_not_intro hts)] at heq
        exact hcompose vs (ih _ _ _ _ _ heq v)
      · rw [if_pos hts] at heq
        by_cases htt : target = terminate
        · rw [if_pos htt] at heq
          have hv : vs1 = markVisited vs target active := by
            cases heq
            rfl
          rw [hv]
          exact hmark vs target v
        · rw [if_neg htt] at heq
          exact hcompose vs (ih _ _ _ _ _ heq v)

/-- C9 counterexample: timestamps are not monotone across the engine's
lifetime.  Construct a one-vertex engine, run one traversal (stamping the
vertex with 1), then call `invalidate_previous_dijkstra` `usize::MAX - 1`
times (reaching the clock maximum without touching the stamp); the next call
wraps and resets the stored timestamp from 1 to 0 — a decrease. -/
theorem claim_C9_counterexample :
    (CompleteGraph.new 1 []).all_edges 0 = some (⟨1, [⟨[], 1⟩], 1⟩, []) ∧
    tsOf (⟨1, [⟨[], 1⟩], 1⟩ : CompleteGraph).vertices 0 = 1 ∧
    iterInvalidate (usizeMAX - 1) ⟨1, [⟨[], 1⟩], 1⟩ = ⟨1, [⟨[], 1⟩], usizeMAX⟩ ∧
    tsOf ((⟨1, [⟨[], 1⟩], usizeMAX⟩ :
      CompleteGraph).invalidate_previous_dijkstra).2.vertices 0 = 0 ∧
    (0 : Nat) < 1 := by
  refine ⟨by decide, rfl, ?_, by decide, Nat.zero_lt_one⟩
  obtain ⟨h1, h2, h3⟩ := iterInvalidate_no_wrap (usizeMAX - 1)
    ⟨1, [⟨[], 1⟩], 1⟩ (by norm_num [usizeMAX])
  refine completeGraph_eq (h2.trans rfl) (h1.trans rfl) ?_
  rw [h3]
  show 1 + (usizeMAX - 1) = usizeMAX
  norm_num [usizeMAX]

/-- C9 (amended): timestamps never decrease across any operation performed
while the clock is below `usize::MAX` (given the reachable-state invariant
that no stored timestamp is ahead of the clock); the wrap-handling branch of
`invalidate_previous_dijkstra`, reached only when the clock equals
`usize::MAX`, instead resets every stored timestamp to 0. -/
theorem claim_C9_timestamp_monotone_amended (g : CompleteGraph)
    (hts : TsOK g) (hnw : g.active_timestamp ≠ usizeMAX) :
    (∀ v, tsOf (g.invalidate_previous_dijkstra).2.vertices v = tsOf g.vertices v) ∧
    (∀ s t g1 m, g.all_edges_with_terminate s t = some (g1, m) →
      ∀ v, tsOf g.vertices v ≤ tsOf g1.vertices v) ∧
    (∀ g2 : CompleteGraph, g2.vertices.length = g2.vertex_num →
      g2.active_timestamp = usizeMAX →
      ∀ v, tsOf (g2.invalidate_previous_dijkstra).2.vertices v = 0) := by
  obtain ⟨h1, h2, h3, h4⟩ := invalidate_no_wrap hnw
  refine ⟨fun v => by rw [h3], ?_, ?_⟩
  · intro s t g1 m heq v
    have hloop := loop_of_all_edges_with_terminate heq
    have hor := dijkstraLoop_ts_or s t (g.invalidate_previous_dijkstra).1
      _ _ _ _ _ _ hloop v
    rw [h3, h1] at hor
    have hb := hts v
    rcases hor with h | h
    · rw [h]
    · rw [h]
      omega
  · intro g2 hlen2 hmax2 v
    have hg2_inv : g2.invalidate_previous_dijkstra =
        (1, ⟨g2.vertex_num, (List.range g2.vertex_num).foldl
          (fun vs i => vs.set i { vs.getD i dfltVertex with timestamp := 0 })
          g2.vertices, 1⟩) := by
      unfold CompleteGraph.invalidate_previous_dijkstra
      rw [if_pos hmax2]
    rw [hg2_inv]
    obtain ⟨hrlen, hredges, hrts, hrmem⟩ :=
      resetFold_facts (List.range g2.vertex_num) g2.vertices
    show tsOf ((List.range g2.vertex_num).foldl
      (fun vs i => markVisited vs i 0) g2.vertices) v = 0
    by_cases hv : v < g2.vertex_num
    · rcases hrmem v (List.mem_range.mpr hv) with h | h
      · exact h
      · rw [hlen2] at h
        omega
    · rcases hrts v with h | h
      · exact h
      · rw [h]
        exact tsOf_oob (by rw [hlen2]; exact Nat.le_of_not_lt hv)

/-- C9 amended witness: the amended monotonicity statement at a concrete
freshly built engine. -/
theorem claim_C9_witness :
    (∀ v, tsOf ((CompleteGraph.new 2 [(0, 1, 3)]).invalidate_previous_dijkstra).2.vertices v =
      tsOf (CompleteGraph.new 2 [(0, 1, 3)]).vertices v) ∧
    (∀ s t g1 m, (CompleteGraph.new 2 [(0, 1, 3)]).all_edges_with_terminate s t =
        some (g1, m) →
      ∀ v, tsOf (CompleteGraph.new 2 [(0, 1, 3)]).vertices v ≤ tsOf g1.vertices v) ∧
    (∀ g2 : CompleteGraph, g2.vertices.length = g2.vertex_num →
      g2.active_timestamp = usizeMAX →
      ∀ v, tsOf (g2.invalidate_previous_dijkstra).2.vertices v = 0) :=
  claim_C9_timestamp_monotone_amended (CompleteGraph.new 2 [(0, 1, 3)])
    (new_engineWF (by decide) (by decide)).2 (by decide)

/-! ## Claims C4 and C7: path reconstruction -/

/-- State evolution of `get_path`'s accumulator across the backward walk:
each step adjusts the previously pushed element and appends the next one
(the loop body of lines 116-127, iterated). -/
def pathFold : List (Nat × Nat) → List (Nat × Nat) → List (Nat × Nat)
  | acc, [] => acc
  | acc, (v, w) :: rest => pathFold (adjustLast acc w ++ [(v, w)]) rest

/-- Cumulative weights along a raw backward walk are non-increasing toward
the source (each predecessor's recorded distance is at most its successor's),
which is what makes the loop's truncated subtractions exact. -/
def WeightsDesc : List (Nat × Nat) → Prop
  | [] => True
  | [_] => True
  | (_, w) :: (y, w2) :: rest => w2 ≤ w ∧ WeightsDesc ((y, w2) :: rest)

theorem adjustLast_concat {l : List (Nat × Nat)} {e : Nat × Nat} {w : Nat} :
    adjustLast (l ++ [e]) w = l ++ [(e.1, e.2 - w)] := by
  unfold adjustLast
  rw [List.getLast?_concat, List.dropLast_concat]

theorem concat_getD_len {α : Type} (d : α) :
    ∀ (l : List α) (e : α) (t : List α), ((l ++ [e]) ++ t).getD l.length d = e := by
  intro l
  induction l with
  | nil => intro e t; rfl
  | cons x xs ih =>
    intro e t
    rw [List.cons_append, List.cons_append, List.length_cons,
      List.getD_cons_succ]
    exact ih e t

theorem concat_set_len {α : Type} :
    ∀ (l : List α) (e x : α) (t : List α),
      ((l ++ [e]) ++ t).set l.length x = (l ++ [x]) ++ t := by
  intro l
  induction l with
  | nil => intro e x t; rfl
  | cons y xs ih =>
    intro e x t
    rw [List.cons_append, List.cons_append, List.length_cons,
      List.set_cons_succ, ih, List.cons_append, List.cons_append]

theorem pathStep_eq (acc : List (Nat × Nat)) (v w : Nat) :
    (if (acc ++ [(v, w)]).length > 1 then
       (acc ++ [(v, w)]).set ((acc ++ [(v, w)]).length - 2)
         (((acc ++ [(v, w)]).getD ((acc ++ [(v, w)]).length - 2) (0, 0)).1,
          ((acc ++ [(v, w)]).getD ((acc ++ [(v, w)]).length - 2) (0, 0)).2 - w)
     else acc ++ [(v, w)]) = adjustLast acc w ++ [(v, w)] := by
  rcases List.eq_nil_or_concat acc with h | ⟨l, e, h⟩
  · subst h
    rw [if_neg (by simp)]
    rfl
  · subst h
    simp only [List.concat_eq_append]
    have hlen : ((l ++ [e]) ++ [(v, w)]).length = l.length + 2 := by simp
    rw [hlen]
    have h2 : l.length + 2 - 2 = l.length := by omega
    rw [h2]
    rw [if_pos (by omega)]
    rw [concat_getD_len (0, 0) l e [(v, w)], concat_set_len, adjustLast_concat]

theorem getPathLoop_stop (ce : List (Nat × (Nat × Nat))) (a f : Nat)
    (acc : List (Nat × Nat)) :
    getPathLoop ce a (f + 1) a acc = .ok acc := by
  rw [getPathLoop, if_pos rfl]

theorem getPathLoop_miss {ce : List (Nat × (Nat × Nat))} {a v : Nat}
    (f : Nat) (hva : ¬ v = a) (hlk : alookup v ce = none)
    (acc : List (Nat × Nat)) :
    getPathLoop ce a (f + 1) v acc = .error .missingKey := by
  rw [getPathLoop, if_neg hva, hlk]

theorem getPathLoop_step {ce : List (Nat × (Nat × Nat))} {a v p w : Nat}
    (f : Nat) (hva : ¬ v = a) (hlk : alookup v ce = some (p, w))
    (acc : List (Nat × Nat)) :
    getPathLoop ce a (f + 1) v acc =
      getPathLoop ce a f p (adjustLast acc w ++ [(v, w)]) := by
  rw [getPathLoop, if_neg hva, hlk]
  show getPathLoop ce a f p
    (if (acc ++ [(v, w)]).length > 1 then
       (acc ++ [(v, w)]).set ((acc ++ [(v, w)]).length - 2)
         (((acc ++ [(v, w)]).getD ((acc ++ [(v, w)]).length - 2) (0, 0)).1,
          ((acc ++ [(v, w)]).getD ((acc ++ [(v, w)]).length - 2) (0, 0)).2 - w)
     else acc ++ [(v, w)]) =
    getPathLoop ce a f p (adjustLast acc w ++ [(v, w)])
  rw [pathStep_eq]

theorem getPathLoop_raw {ce : List (Nat × (Nat × Nat))} {a : Nat}
    {v : Nat} {raw : List (Nat × Nat)} (hraw : RawChain ce a v raw) :
    ∀ (fuel : Nat) (acc : List (Nat × Nat)), raw.length < fuel →
      getPathLoop ce a fuel v acc = .ok (pathFold acc raw) := by
  induction hraw with
  | nil =>
    intro fuel acc hf
    cases fuel with
    | zero => exact absurd hf (Nat.lt_irrefl 0)
    | succ f => exact getPathLoop_stop ce a f acc
  | cons hva hlk hrest ih =>
    intro fuel acc hf
    cases fuel with
    | zero => exact absurd hf (Nat.not_lt_zero _)
    | succ f =>
      rw [getPathLoop_step f hva hlk acc]
      rw [ih f _ (Nat.lt_of_succ_lt_succ hf)]
      rfl

theorem pathFold_eq :
    ∀ (rest : List (Nat × Nat)) (acc : List (Nat × Nat)) (v w : Nat),
      pathFold acc ((v, w) :: rest) = adjustLast acc w ++ diffAdjust ((v, w) :: rest) := by
  intro rest
  induction rest with
  | nil => intro acc v w; rfl
  | cons e rest ih =>
    intro acc v w
    obtain ⟨v2, w2⟩ := e
    show pathFold (adjustLast acc w ++ [(v, w)]) ((v2, w2) :: rest) = _
    rw [ih, adjustLast_concat, List.append_assoc]
    rfl

theorem diffAdjust_sum :
    ∀ (rest : List (Nat × Nat)) (v w : Nat), WeightsDesc ((v, w) :: rest) →
      ((diffAdjust ((v, w) :: rest)).map Prod.snd).sum = w := by
  intro rest
  induction rest with
  | nil =>
    intro v w h
    show ([(v, w)].map Prod.snd).sum = w
    simp
  | cons e rest ih =>
    intro v w h
    obtain ⟨v2, w2⟩ := e
    obtain ⟨hle, h2⟩ := h
    show (((v, w - w2) :: diffAdjust ((v2, w2) :: rest)).map Prod.snd).sum = w
    rw [List.map_cons, List.sum_cons, ih v2 w2 h2]
    show w - w2 + w2 = w
    omega

theorem diffAdjust_head (rest : List (Nat × Nat)) (v w : Nat) :
    ∃ w2 t, diffAdjust ((v, w) :: rest) = (v, w2) :: t := by
  cases rest with
  | nil => exact ⟨w, [], rfl⟩
  | cons e r =>
    obtain ⟨v2, w2⟩ := e
    exact ⟨w - w2, diffAdjust ((v2, w2) :: r), rfl⟩

theorem chain_to_raw {E : Nat → List (Nat × Nat)} {a : Nat}
    {ce : List (Nat × (Nat × Nat))}
    (hent : ∀ v p w, alookup v ce = some (p, w) → ¬ v = a ∧ IsShortest E a v w ∧
      ∃ wpv, alookup v (E p) = some wpv ∧ ∃ dp, IsShortest E a p dp ∧ dp + wpv = w)
    {v j : Nat} (hch : Chain ce a v j) :
    ∃ raw, RawChain ce a v raw ∧ WeightsDesc raw ∧ raw.length = j ∧
      (match raw with
        | [] => v = a
        | (v1, w1) :: _ => v1 = v ∧ ∃ p, alookup v ce = some (p, w1)) := by
  induction hch with
  | base => exact ⟨[], RawChain.nil, trivial, rfl, rfl⟩
  | step hvl hch2 ih =>
    rename_i v2 p2 w2 j2
    obtain ⟨raw_p, hraw, hdesc, hlenr, hhead⟩ := ih
    obtain ⟨hva, hsv, wpv, hwpv, dp, hdp, hsum⟩ := hent v2 p2 w2 hvl
    refine ⟨(v2, w2) :: raw_p, RawChain.cons hva hvl hraw, ?_, ?_, rfl, p2, hvl⟩
    · cases raw_p with
      | nil => trivial
      | cons e t =>
        obtain ⟨p1, w1⟩ := e
        obtain ⟨hp1, q, hq⟩ := hhead
        have hsp := (hent p2 q w1 hq).2.1
        have hdw : dp = w1 := isShortest_unique hdp hsp
        show w1 ≤ w2 ∧ WeightsDesc ((p1, w1) :: t)
        exact ⟨by omega, hdesc⟩
    · rw [List.length_cons, hlenr]

theorem get_path_run {g : CompleteGraph} (hwf : EngineWF g) (hts : TsOK g)
    (a b : Nat) (ha : a < g.vertex_num) (hab : ¬ a = b)
    (hreach : Reachable (edgesOf g.vertices) a b) :
    ∃ g1 path total, g.get_path a b = .ok (g1, (path, total)) ∧
      (∃ wlast, path.getLast? = some (b, wlast)) ∧
      (path.map Prod.snd).sum = total ∧
      IsShortest (edgesOf g.vertices) a b total := by
  obtain ⟨g1, m, hrun, hnum, hlen, hedges, hwf1, hts1, htsor, hspec⟩ :=
    all_edges_with_terminate_run hwf hts a b ha
  have hbent : ∃ x, alookup b m = some x := by
    rcases hspec.complete with h | h
    · exact h
    · obtain ⟨d, hd⟩ := hreach
      rcases h b d hd with h2 | h2
      · exact absurd h2.symm hab
      · exact h2
  obtain ⟨⟨p0, wb⟩, hblk⟩ := hbent
  obtain ⟨j, hj, hch⟩ := hspec.chain_bound b (p0, wb) hblk
  have hent : ∀ v p w, alookup v m = some (p, w) →
      ¬ v = a ∧ IsShortest (fun u => edgesOf g.vertices u) a v w ∧
      ∃ wpv, alookup v ((fun u => edgesOf g.vertices u) p) = some wpv ∧
        ∃ dp, IsShortest (fun u => edgesOf g.vertices u) a p dp ∧ dp + wpv = w := by
    intro v p w hv
    obtain ⟨h1, h2, h3, h4, h5⟩ := hspec.entry v p w hv
    exact ⟨h1, h3, h4⟩
  obtain ⟨raw, hraw, hdesc, hlenraw, hheadm⟩ := chain_to_raw hent hch
  cases raw with
  | nil => exact absurd hheadm.symm hab
  | cons hd rest =>
    obtain ⟨v1, w1⟩ := hd
    obtain ⟨hv1, p', hp'⟩ := hheadm
    have hinj := Option.some.inj (hblk.symm.trans hp')
    have hwbw1 : wb = w1 := congrArg Prod.snd hinj
    have hfuel : ((v1, w1) :: rest).length < m.length + 1 := by
      rw [hlenraw]
      omega
    have hloopeq : getPathLoop m a (m.length + 1) b [] =
        .ok (diffAdjust ((v1, w1) :: rest)) := by
      rw [getPathLoop_raw hraw (m.length + 1) [] hfuel, pathFold_eq]
      rfl
    have h0 : g.get_path a b =
        (if a = b then Except.error GetPathError.invalidArgument
         else
           match g.all_edges_with_terminate a b with
           | none => Except.error GetPathError.outOfFuel
           | some (g1x, edgesx) =>
             match getPathLoop edgesx a (edgesx.length + 1) b [] with
             | .error e => Except.error e
             | .ok path =>
               match alookup b edgesx with
               | none => Except.error GetPathError.missingKey
               | some pw => Except.ok (g1x, (path.reverse, pw.2))) := rfl
    rw [if_neg hab, hrun] at h0
    refine ⟨g1, (diffAdjust ((v1, w1) :: rest)).reverse, wb, ?_, ?_, ?_, ?_⟩
    · rw [h0]
      show (match getPathLoop m a (m.length + 1) b [] with
        | .error e => Except.error e
        | .ok path =>
          match alookup b m with
          | none => Except.error GetPathError.missingKey
          | some pw => Except.ok (g1, (path.reverse, pw.2))) =
        Except.ok (g1, ((diffAdjust ((v1, w1) :: rest)).reverse, wb))
      rw [hloopeq, hblk]
    · obtain ⟨w2, t, hda⟩ := diffAdjust_head rest v1 w1
      rw [hda]
      refine ⟨w2, ?_⟩
      rw [List.getLast?_reverse, hv1]
      rfl
    · rw [List.map_reverse, List.sum_reverse, hwbw1]
      exact diffAdjust_sum rest v1 w1 hdesc
    · exact (hspec.entry b p0 wb hblk).2.2.1

/-- C4: for every well-formed engine and distinct vertices `a`, `b` with `b`
reachable from `a`, `get_path(a, b)` returns a pair `(path, total)` whose last
path element's vertex is exactly `b`, whose per-step incremental weights sum
to `total`, and whose `total` equals the weight recorded for `b` in the result
map of the full traversal `all_edges(a)`. -/
theorem claim_C4_get_path (g : CompleteGraph) (hwf : EngineWF g) (hts : TsOK g)
    (a b : Nat) (ha : a < g.vertex_num) (hab : ¬ a = b)
    (hreach : Reachable (edgesOf g.vertices) a b) :
    ∃ g1 path total, g.get_path a b = .ok (g1, (path, total)) ∧
      (∃ wlast, path.getLast? = some (b, wlast)) ∧
      (path.map Prod.snd).sum = total ∧
      ∀ g2 m2, g.all_edges a = some (g2, m2) →
        ∃ p, alookup b m2 = some (p, total) := by
  obtain ⟨g1, path, total, hok, hlast, hsum, hshort⟩ :=
    get_path_run hwf hts a b ha hab hreach
  refine ⟨g1, path, total, hok, hlast, hsum, ?_⟩
  intro g2 m2 hfull
  obtain ⟨g2x, m2x, hrun2, hn2, hl2, he2, hwf2, hts2, hor2, hspec2⟩ :=
    all_edges_with_terminate_run hwf hts a usizeMAX ha
  have hfull2 : g.all_edges_with_terminate a usizeMAX = some (g2, m2) := hfull
  rw [hrun2] at hfull2
  have hpair := Option.some.inj hfull2
  have hm2 : m2x = m2 := congrArg Prod.snd hpair
  have hbent2 : ∃ x, alookup b m2x = some x := by
    rcases hspec2.complete with h | h
    · obtain ⟨⟨q, wq⟩, hq⟩ := h
      have h2 := (hspec2.entry usizeMAX q wq hq).2.1
      exact absurd h2 (Nat.not_lt.mpr hwf.num_le)
    · obtain ⟨d, hd⟩ := hreach
      rcases h b d hd with h2 | h2
      · exact absurd h2.symm hab
      · exact h2
  obtain ⟨⟨p2, w2b⟩, hb2⟩ := hbent2
  have hshort2 := (hspec2.entry b p2 w2b hb2).2.2.1
  have hw : w2b = total := isShortest_unique hshort2 hshort
  refine ⟨p2, ?_⟩
  rw [← hm2, hb2, hw]

/-- C4 witness: the path query `0 → 3` on the skeleton graph
`{0-1:10, 1-2:10, 0-2:5, 2-3:1}`. -/
theorem claim_C4_witness :
    ∃ g1 path total,
      (CompleteGraph.new 4 [(0, 1, 10), (1, 2, 10), (0, 2, 5), (2, 3, 1)]).get_path 0 3 =
        .ok (g1, (path, total)) ∧
      (∃ wlast, path.getLast? = some (3, wlast)) ∧
      (path.map Prod.snd).sum = total ∧
      ∀ g2 m2,
        (CompleteGraph.new 4 [(0, 1, 10), (1, 2, 10), (0, 2, 5), (2, 3, 1)]).all_edges 0 =
          some (g2, m2) → ∃ p, alookup 3 m2 = some (p, total) :=
  claim_C4_get_path _ (new_engineWF (by decide) (by decide)).1
    (new_engineWF (by decide) (by decide)).2 0 3 (by decide) (by decide)
    ⟨0 + 5 + 1, HasDist.step (v := 3) (w := 1)
      (HasDist.step (v := 2) (w := 5) HasDist.base (by decide)) (by decide)⟩

/-- C7: `get_path(a, a)` fails with the invalid-argument condition;
`get_path(a, b)` with `b` unreachable from `a` fails with the missing-key
condition (the traversal's result map has no entry for `b`); and for distinct
`a`, `b` with `b` reachable it returns normally. -/
theorem claim_C7_error_conditions (g : CompleteGraph) (hwf : EngineWF g)
    (hts : TsOK g) (a b : Nat) (ha : a < g.vertex_num) :
    g.get_path a a = .error .invalidArgument ∧
    (¬ a = b → ¬ Reachable (edgesOf g.vertices) a b →
      g.get_path a b = .error .missingKey) ∧
    (¬ a = b → Reachable (edgesOf g.vertices) a b →
      ∃ g1 path total, g.get_path a b = .ok (g1, (path, total))) := by
  refine ⟨?_, ?_, ?_⟩
  · unfold CompleteGraph.get_path
    rw [if_pos rfl]
  · intro hab hunreach
    obtain ⟨g1, m, hrun, hnum, hlen, hedges, hwf1, hts1, htsor, hspec⟩ :=
      all_edges_with_terminate_run hwf hts a b ha
    have hnone : alookup b m = none := by
      cases hlk : alookup b m with
      | none => rfl
      | some x =>
        obtain ⟨p, w⟩ := x
        have hsh := (hspec.entry b p w hlk).2.2.1
        exact absurd ⟨w, hsh.1⟩ hunreach
    have hba : ¬ b = a := fun h => hab h.symm
    have h0 : g.get_path a b =
        (if a = b then Except.error GetPathError.invalidArgument
         else
           match g.all_edges_with_terminate a b with
           | none => Except.error GetPathError.outOfFuel
           | some (g1x, edgesx) =>
             match getPathLoop edgesx a (edgesx.length + 1) b [] with
             | .error e => Except.error e
             | .ok path =>
               match alookup b edgesx with
               | none => Except.error GetPathError.missingKey
               | some pw => Except.ok (g1x, (path.reverse, pw.2))) := rfl
    rw [if_neg hab, hrun] at h0
    rw [h0]
    show (match getPathLoop m a (m.length + 1) b [] with
      | .error e => Except.error e
      | .ok path =>
        match alookup b m with
        | none => Except.error GetPathError.missingKey
        | some pw => Except.ok (g1, (path.reverse, pw.2))) =
      Except.error GetPathError.missingKey
    rw [getPathLoop_miss m.length hba hnone []]
  · intro hab hreach
    obtain ⟨g1, path, total, hok, h1, h2, h3⟩ :=
      get_path_run hwf hts a b ha hab hreach
    exact ⟨g1, path, total, hok⟩

/-- C7 witness: on the skeleton graph `{0-1:3}` over 3 vertices, querying
`0 → 0` and the isolated vertex `0 → 2`. -/
theorem claim_C7_witness :
    (CompleteGraph.new 3 [(0, 1, 3)]).get_path 0 0 = .error .invalidArgument ∧
    (¬ (0 : Nat) = 2 →
      ¬ Reachable (edgesOf (CompleteGraph.new 3 [(0, 1, 3)]).vertices) 0 2 →
      (CompleteGraph.new 3 [(0, 1, 3)]).get_path 0 2 = .error .missingKey) ∧
    (¬ (0 : Nat) = 2 →
      Reachable (edgesOf (CompleteGraph.new 3 [(0, 1, 3)]).vertices) 0 2 →
      ∃ g1 path total,
        (CompleteGraph.new 3 [(0, 1, 3)]).get_path 0 2 = .ok (g1, (path, total))) :=
  claim_C7_error_conditions _ (new_engineWF (by decide) (by decide)).1
    (new_engineWF (by decide) (by decide)).2 0 2 (by decide)
